import Mathlib

/-!
A verification development for `proust.py`, a TeX-aware inline expression
evaluator for Vim.  The program takes a line of text and a cursor column,
scans out an expression (`find_expression`), rewrites TeX-ish notation into
Python syntax and evaluates it (`workout`), and renders the result back as
text (`evaluate_expression`).

The development is a shallow embedding of that program:

* `find_expression` is translated statement by statement, including its
  `while`-loop (`feLoop`) and Python's slice semantics; a Python `IndexError`
  is modelled as `Except.error .indexError`.
* The regex/replace normalisation chain inside `workout` is translated rule
  by rule (`replaceAll`, `reSub` with one matcher per regex, in the exact
  source order).
* Python's `eval` of the normalised text is modelled by a tokenizer, a
  parser for the arithmetic fragment the program relies on (int and float
  literals, `+ - * / // **`, unary signs, parentheses, names and calls) and
  an evaluator over that AST.  Python ints are `Int`; Python floats are
  modelled as exact rationals (`PRat`), so the model computes exactly where
  IEEE doubles round; on every value exercised below the two agree.  The
  modelled namespace is the exactly-computable fragment of the module's
  namespace: the constants `pi`, `e`, `phi` (at their float values) and the
  functions `factorial`, `choose`, `gcd`, `lcm`, `comb`, `perm`, `floor`,
  `ceil`, `fabs`.  Transcendental and date functions (`sin`, `sqrt`, `dow`,
  ...) are outside the model; a float power with a non-integral exponent
  (never exercised) returns 0.
* `evaluate_expression` is translated with its `try/except` structure:
  the `'%g' %` formatting, `float()` parsing, `str()` of floats (shortest
  exact decimal, with Python's fixed/scientific thresholds) and
  `fractions.Fraction(...).limit_denominator()` (CPython's algorithm).

All definitions are total and kernel-reducible (fuel is threaded where the
recursion is not structural), so concrete runs are settled by `rfl`/`decide`.
-/

set_option maxRecDepth 16000

namespace Proust

/-- Errors of the Python runtime that the program can raise or catch. -/
inductive PyErr where
  | syntaxError
  | valueError
  | zeroDivisionError
  | nameError
  | typeError
  | indexError
deriving DecidableEq

/-- Fuel-driven fixpoint through `Nat.rec`.  Unlike equation-compiler fuel
recursion (which builds a `brecOn` tower of the full fuel height), reduction
cost is proportional to the number of steps actually taken, so a huge fuel
literal is free. -/
def fuelFix {α β : Type} (step : (α → β) → α → β) (base : α → β) : Nat → α → β :=
  fun n => Nat.rec base (fun _ rec => step rec) n

theorem fuelFix_succ {α β : Type} (step : (α → β) → α → β) (base : α → β)
    (f : Nat) (a : α) : fuelFix step base (f + 1) a = step (fuelFix step base f) a := rfl

theorem fuelFix_zero {α β : Type} (step : (α → β) → α → β) (base : α → β)
    (a : α) : fuelFix step base 0 a = base a := rfl

/-- Euclid's gcd on a fuel budget; callers pass fuel `b + 1 ≥` the number of
steps. -/
def gcdF : Nat → Nat × Nat → Nat :=
  fuelFix (fun rec p => if p.2 = 0 then p.1 else rec (p.2, p.1 % p.2)) (fun p => p.1)

/-- Exact rationals in canonical form (reduced, positive denominator), the
model of Python floats.  All constructors go through `pNorm`, so structural
equality is value equality. -/
structure PRat where
  num : Int
  den : Nat
deriving DecidableEq

/-- Build the canonical rational `n / d` (`d ≠ 0` in every reachable call). -/
def pNorm (n : Int) (d : Int) : PRat :=
  if d = 0 then ⟨0, 0⟩
  else
    let s : Int := if d < 0 then -1 else 1
    let n' := s * n
    let dn := (s * d).toNat
    let g := gcdF (dn + 1) (n'.natAbs, dn)
    ⟨n' / (g : Int), dn / g⟩

/-- `n / d` as a canonical rational; the form used in theorem statements. -/
def pQ (n d : Int) : PRat := pNorm n d

def pOfInt (n : Int) : PRat := ⟨n, 1⟩

def pAdd (a b : PRat) : PRat := pNorm (a.num * b.den + b.num * a.den) ((a.den : Int) * b.den)

def pNeg (a : PRat) : PRat := ⟨-a.num, a.den⟩

def pSub (a b : PRat) : PRat := pAdd a (pNeg b)

def pMul (a b : PRat) : PRat := pNorm (a.num * b.num) ((a.den : Int) * b.den)

/-- `a / b`; callers have excluded `b = 0`. -/
def pDivP (a b : PRat) : PRat := pNorm (a.num * b.den) ((a.den : Int) * b.num)

def pAbs (a : PRat) : PRat := ⟨(a.num.natAbs : Int), a.den⟩

/-- `a < b` (denominators are positive on every reachable value). -/
def pLtB (a b : PRat) : Bool := a.num * b.den < b.num * a.den

def pLeB (a b : PRat) : Bool := a.num * b.den ≤ b.num * a.den

def pIsZero (a : PRat) : Bool := a.num = 0

def pFloor (a : PRat) : Int := Int.fdiv a.num a.den

def pCeil (a : PRat) : Int := -Int.fdiv (-a.num) a.den

/-- Integer power with a `Nat` exponent (structural; exponents are small on
every evaluated input). -/
def ipowNat (b : Int) : Nat → Int
  | 0 => 1
  | k + 1 => b * ipowNat b k

/-- `a ^ k` for a natural exponent: powers of a reduced fraction are reduced. -/
def pPowNat (a : PRat) (k : Nat) : PRat := ⟨ipowNat a.num k, (ipowNat a.den k).toNat⟩

/-- `a ^ e` for an integer exponent; `a = 0 ∧ e < 0` is excluded by callers. -/
def pPowInt (a : PRat) (e : Int) : PRat :=
  if 0 ≤ e then pPowNat a e.toNat
  else pNorm (ipowNat a.den e.natAbs) (ipowNat a.num e.natAbs)

/-! ### Character utilities -/

def isDigitC (c : Char) : Bool := 48 ≤ c.toNat && c.toNat ≤ 57

def isLowerC (c : Char) : Bool := 97 ≤ c.toNat && c.toNat ≤ 122

def isAlphaC (c : Char) : Bool := isLowerC c || (65 ≤ c.toNat && c.toNat ≤ 90)

def isNameC (c : Char) : Bool := isAlphaC c || isDigitC c || c = '_'

def digitChar (d : Nat) : Char := Char.ofNat (48 + d)

def charDigitVal (c : Char) : Nat := c.toNat - 48

/-- Value of a little-endian digit list (proof helper for `digitsLE`). -/
def valLE : List Nat → Nat
  | [] => 0
  | d :: t => 10 * valLE t + d

/-- Characters of a rendered integer: a decimal digit or the minus sign. -/
def isDigitDash (c : Char) : Bool := isDigitC c || c = '-'

/-! ### String rewriting: `str.replace` and the `re.sub` calls of `workout`

Each rewrite scans left to right, substitutes the leftmost match, and
resumes after the substituted text, exactly like `str.replace` / `re.sub`.
The fuel is the length of the scanned list; every step consumes at least
one character. -/

/-- `s.replace pat rep` for a non-empty `pat`, written structurally on the
scanned list with a skip counter for the matched pattern's tail. -/
def repGo (pat rep : List Char) (skip : Nat) : List Char → List Char
  | [] => []
  | c :: rest =>
    match skip with
    | k + 1 => repGo pat rep k rest
    | 0 =>
      if pat.isPrefixOf (c :: rest) then rep ++ repGo pat rep (pat.length - 1) rest
      else c :: repGo pat rep 0 rest

def replaceAll (pat rep s : List Char) : List Char := repGo pat rep 0 s

/-- Generic `re.sub`: `m` returns `some (replacement, chars-consumed)` when
its regex matches at the head of the list (consuming at least one char);
scanning resumes after the match. -/
def reGo (m : List Char → Option (List Char × Nat)) (skip : Nat) : List Char → List Char
  | [] => []
  | c :: rest =>
    match skip with
    | k + 1 => reGo m k rest
    | 0 =>
      match m (c :: rest) with
      | some (rep, used) => rep ++ reGo m (used - 1) rest
      | none => c :: reGo m 0 rest

/-- `re.sub` over the whole list. -/
def reSubAll (m : List Char → Option (List Char × Nat)) (s : List Char) : List Char :=
  reGo m 0 s

/-- Lazy scan for the closing `}` of `{A\over B}` / `{A\choose B}`: the
shortest `B` (over non-newline characters) followed by `}`. -/
def closeBrace : Nat → List Char → Option (List Char × List Char)
  | 0, _ => none
  | _ + 1, [] => none
  | f + 1, c :: rest =>
    if c = '}' then some ([], rest)
    else if c = '\n' then none
    else (closeBrace f rest).map (fun p => (c :: p.1, p.2))

/-- Lazy scan for `KEY` (e.g. `\over`) then a lazily matched `}`-terminated
tail: tries the shortest `A` first and backtracks past a `KEY` with no
closing brace, like the regex `(.*?)KEY(.*?)}`. -/
def keyBrace (key : List Char) : Nat → List Char → Option (List Char × List Char × List Char)
  | 0, _ => none
  | f + 1, s =>
    if key.isPrefixOf s then
      match closeBrace (s.length + 1) (s.drop key.length) with
      | some (b, rest) => some ([], b, rest)
      | none =>
        match s with
        | [] => none
        | c :: rest =>
          if c = '\n' then none
          else (keyBrace key f rest).map (fun p => (c :: p.1, p.2.1, p.2.2))
    else
      match s with
      | [] => none
      | c :: rest =>
        if c = '\n' then none
        else (keyBrace key f rest).map (fun p => (c :: p.1, p.2.1, p.2.2))

/-- Matcher for `re.sub(r'{(.*?)\\over(.*?)}', r'((\1)/(\2))', s)`. -/
def overMatch (s : List Char) : Option (List Char × Nat) :=
  match s with
  | c :: rest =>
    if c = '{' then
      (keyBrace ('\\' :: (r"over").data) (rest.length + 1) rest).map
        (fun p => ('(' :: '(' :: p.1 ++ (')' :: '/' :: '(' :: p.2.1 ++ [')', ')']),
          p.1.length + p.2.1.length + 7))
    else none
  | _ => none

/-- Matcher for `re.sub(r'{(.*?)\\choose(.*?)}', r'choose(\1,\2)', s)`. -/
def chooseMatch (s : List Char) : Option (List Char × Nat) :=
  match s with
  | c :: rest =>
    if c = '{' then
      (keyBrace ('\\' :: (r"choose").data) (rest.length + 1) rest).map
        (fun p => ((r"choose(").data ++ p.1 ++ (',' :: p.2.1 ++ [')']),
          p.1.length + p.2.1.length + 9))
    else none
  | _ => none

/-- Matcher for `re.sub(r'(\d?\d)!', r'factorial(\1)', s)`: one or two digits
(`\d?\d` greedy, so two when possible) followed by `!`. -/
def factMatch (s : List Char) : Option (List Char × Nat) :=
  match s with
  | a :: b :: rest =>
    if isDigitC a && isDigitC b && rest.head? = some '!' then
      some ((r"factorial(").data ++ [a, b, ')'], 3)
    else if isDigitC a && b = '!' then some ((r"factorial(").data ++ [a, ')'], 2)
    else none
  | _ => none

/-- Matcher for `re.sub(r'([0-9\)])([a-z\(])', r'\1*\2', s)`: implicit
multiplication between a digit or `)` and a letter or `(`. -/
def imulMatch (s : List Char) : Option (List Char × Nat) :=
  match s with
  | a :: b :: _ =>
    if (isDigitC a || a = ')') && (isLowerC b || b = '(') then some ([a, '*', b], 2)
    else none
  | _ => none

/-- Matcher for the unit rewrites `re.sub(r'(\d+(:?\.\d+)?)\*UNIT', r'(\1*FACTOR)', s)`:
digits, an optional (`:`-prefixed-optionally) fraction part, then `*UNIT`.
Maximal-munch digit runs are complete for this pattern (a shorter run leaves
a digit where `.` or `*` is required). -/
def unitMatch (unit factor : List Char) (s : List Char) : Option (List Char × Nat) :=
  let ip := s.takeWhile isDigitC
  let r1 := s.dropWhile isDigitC
  if ip = [] then none
  else
    -- optional group `(:?\.\d+)?`, greedy: with the `:` if it is there
    let tryTail : List Char → Bool := fun t => ('*' :: unit).isPrefixOf t
    let tryFrac : List Char → Option (List Char) := fun t =>
      match t with
      | '.' :: t2 =>
        let fp := t2.takeWhile isDigitC
        let t3 := t2.dropWhile isDigitC
        if fp = [] then none
        else if tryTail t3 then some ('.' :: fp) else none
      | _ => none
    let withColon : Option (List Char) :=
      match r1 with
      | ':' :: r2 => (tryFrac r2).map (fun g => ':' :: g)
      | _ => none
    let finish : List Char → Option (List Char × Nat) := fun g2 =>
      some ('(' :: ip ++ g2 ++ ('*' :: factor ++ [')']),
        ip.length + g2.length + 1 + unit.length)
    match withColon with
    | some g2 => finish g2
    | none =>
      match tryFrac r1 with
      | some g2 => finish g2
      | none => if tryTail r1 then finish [] else none

/-- The de-TeXification chain of `workout`, in source order (lines 231-245). -/
def normChars (s0 : List Char) : List Char :=
  let s := replaceAll ('\\' :: (r"times").data) (['*']) s0
  let s := replaceAll ('\\' :: (r"left(").data) (['(']) s
  let s := replaceAll ('\\' :: (r"right)").data) ([')']) s
  let s := reSubAll overMatch s
  let s := reSubAll chooseMatch s
  let s := replaceAll (['^']) ((r"**").data) s
  let s := replaceAll (['{']) (['(']) s
  let s := replaceAll (['}']) ([')']) s
  let s := replaceAll (['\\']) ([]) s
  let s := reSubAll factMatch s
  let s := reSubAll imulMatch s
  let s := reSubAll (unitMatch (r"mm").data ((r"720/254").data)) s
  let s := reSubAll (unitMatch (r"in").data ((r"72").data)) s
  let s := reSubAll (unitMatch (r"bp").data ((r"1").data)) s
  let s := reSubAll (unitMatch (r"pt").data ((r"7200/7227").data)) s
  s

/-- `normalize` on strings: the rewriting `workout` performs before `eval`. -/
def normalize (s : String) : String := ⟨normChars s.data⟩

/-! ### Python values and `eval`

`eval` on the normalised text is modelled as tokenize / parse / evaluate
over the arithmetic fragment described in the header. -/

/-- Python values reachable in the modelled fragment. -/
inductive PyVal where
  | int (n : Int)
  | float (q : PRat)
  | str (s : String)
  | func (name : String)
deriving DecidableEq

inductive Tok where
  | int (n : Int)
  | float (q : PRat)
  | name (s : String)
  | lparen
  | rparen
  | comma
  | plus
  | minus
  | star
  | slash
  | dstar
  | dslash
deriving DecidableEq

/-- Numeric value of a run of decimal digit characters. -/
def intValC (ds : List Char) : Nat := ds.foldl (fun a c => 10 * a + charDigitVal c) 0

/-- A number token may not be directly followed by a letter or `_`
(`2q` is a `SyntaxError` in Python). -/
def afterNumCheck (t : Tok) (r : List Char) : Except PyErr (Tok × List Char) :=
  match r with
  | c :: _ => if isNameC c then .error .syntaxError else .ok (t, r)
  | [] => .ok (t, [])

/-- Optional exponent part of a float literal (`e`/`E`, optional sign,
mandatory digits). -/
def readExpPart (mant : PRat) (r1 : List Char) : Except PyErr (Tok × List Char) :=
  match r1 with
  | c :: rest =>
    if c = 'e' || c = 'E' then
      let signed : Int × List Char :=
        match rest with
        | '+' :: r => (1, r)
        | '-' :: r => (-1, r)
        | r => (1, r)
      let ds := signed.2.takeWhile isDigitC
      let r3 := signed.2.dropWhile isDigitC
      if ds.isEmpty then .error .syntaxError
      else afterNumCheck (.float (pMul mant (pPowInt (pOfInt 10) (signed.1 * (intValC ds : Int))))) r3
    else afterNumCheck (.float mant) r1
  | [] => .ok (.float mant, [])

/-- Read a number token (the head of `s` is a digit or `.`).  Python 3
rejects decimal int literals with leading zeros (`05`), but not all-zero
ones (`00`) and not floats (`05.5`). -/
def readNum (s : List Char) : Except PyErr (Tok × List Char) :=
  let ip := s.takeWhile isDigitC
  let r1 := s.dropWhile isDigitC
  match r1 with
  | '.' :: r2 =>
    let fp := r2.takeWhile isDigitC
    let r3 := r2.dropWhile isDigitC
    if ip.isEmpty && fp.isEmpty then .error .syntaxError
    else readExpPart (pNorm ((intValC ip : Int) * ipowNat 10 fp.length + (intValC fp : Int))
      (ipowNat 10 fp.length)) r3
  | c :: _ =>
    if c = 'e' || c = 'E' then readExpPart (pOfInt (intValC ip)) r1
    else if isNameC c then .error .syntaxError
    else if ip.head? = some '0' && ip.any (fun d => d ≠ '0') then .error .syntaxError
    else .ok (.int (intValC ip), r1)
  | [] =>
    if ip.head? = some '0' && ip.any (fun d => d ≠ '0') then .error .syntaxError
    else .ok (.int (intValC ip), [])

/-- Tokenizer for the modelled expression language (fuel ≥ length + 1). -/
def tokenize : Nat → List Char → Except PyErr (List Tok)
  | _, [] => .ok []
  | 0, _ => .error .syntaxError
  | f + 1, c :: rest =>
    if c = ' ' then tokenize f rest
    else if c = '(' then (tokenize f rest).map (Tok.lparen :: ·)
    else if c = ')' then (tokenize f rest).map (Tok.rparen :: ·)
    else if c = ',' then (tokenize f rest).map (Tok.comma :: ·)
    else if c = '+' then (tokenize f rest).map (Tok.plus :: ·)
    else if c = '-' then (tokenize f rest).map (Tok.minus :: ·)
    else if c = '*' then
      match rest with
      | '*' :: r2 => (tokenize f r2).map (Tok.dstar :: ·)
      | _ => (tokenize f rest).map (Tok.star :: ·)
    else if c = '/' then
      match rest with
      | '/' :: r2 => (tokenize f r2).map (Tok.dslash :: ·)
      | _ => (tokenize f rest).map (Tok.slash :: ·)
    else if isDigitC c || c = '.' then
      match readNum (c :: rest) with
      | .error e => .error e
      | .ok (t, r) => (tokenize f r).map (t :: ·)
    else if isAlphaC c || c = '_' then
      let nm := (c :: rest).takeWhile isNameC
      let r := (c :: rest).dropWhile isNameC
      (tokenize f r).map (Tok.name ⟨nm⟩ :: ·)
    else .error .syntaxError

mutual
/-- AST of the modelled Python expression fragment. -/
inductive PExpr where
  | intL (n : Int)
  | floatL (q : PRat)
  | nameE (s : String)
  | neg (a : PExpr)
  | pos (a : PExpr)
  | add (a b : PExpr)
  | sub (a b : PExpr)
  | mul (a b : PExpr)
  | div (a b : PExpr)
  | fdiv (a b : PExpr)
  | pow (a b : PExpr)
  | call (f : PExpr) (args : PArgs)

inductive PArgs where
  | anil
  | acons (hd : PExpr) (tl : PArgs)
end

mutual
/-- Additive level: `term (('+'|'-') term)*`. -/
def parseExpr : Nat → List Tok → Except PyErr (PExpr × List Tok)
  | 0, _ => .error .syntaxError
  | f + 1, ts =>
    match parseTerm f ts with
    | .ok (a, rest) => parseExprLoop f a rest
    | .error e => .error e

def parseExprLoop : Nat → PExpr → List Tok → Except PyErr (PExpr × List Tok)
  | 0, _, _ => .error .syntaxError
  | f + 1, a, ts =>
    match ts with
    | .plus :: r =>
      match parseTerm f r with
      | .ok (b, rest) => parseExprLoop f (.add a b) rest
      | .error e => .error e
    | .minus :: r =>
      match parseTerm f r with
      | .ok (b, rest) => parseExprLoop f (.sub a b) rest
      | .error e => .error e
    | _ => .ok (a, ts)

/-- Multiplicative level: `unary (('*'|'/'|'//') unary)*`. -/
def parseTerm : Nat → List Tok → Except PyErr (PExpr × List Tok)
  | 0, _ => .error .syntaxError
  | f + 1, ts =>
    match parseUnary f ts with
    | .ok (a, rest) => parseTermLoop f a rest
    | .error e => .error e

def parseTermLoop : Nat → PExpr → List Tok → Except PyErr (PExpr × List Tok)
  | 0, _, _ => .error .syntaxError
  | f + 1, a, ts =>
    match ts with
    | .star :: r =>
      match parseUnary f r with
      | .ok (b, rest) => parseTermLoop f (.mul a b) rest
      | .error e => .error e
    | .slash :: r =>
      match parseUnary f r with
      | .ok (b, rest) => parseTermLoop f (.div a b) rest
      | .error e => .error e
    | .dslash :: r =>
      match parseUnary f r with
      | .ok (b, rest) => parseTermLoop f (.fdiv a b) rest
      | .error e => .error e
    | _ => .ok (a, ts)

/-- Unary level: `('-'|'+') unary | power`; `-2**2 = -(2**2)`. -/
def parseUnary : Nat → List Tok → Except PyErr (PExpr × List Tok)
  | 0, _ => .error .syntaxError
  | f + 1, ts =>
    match ts with
    | .minus :: r => (parseUnary f r).map (fun p => (.neg p.1, p.2))
    | .plus :: r => (parseUnary f r).map (fun p => (.pos p.1, p.2))
    | _ => parsePower f ts

/-- Power level, right associative with a unary right operand: `2**-3`. -/
def parsePower : Nat → List Tok → Except PyErr (PExpr × List Tok)
  | 0, _ => .error .syntaxError
  | f + 1, ts =>
    match parseAtom f ts with
    | .ok (a, .dstar :: r2) => (parseUnary f r2).map (fun p => (.pow a p.1, p.2))
    | .ok (a, rest) => .ok (a, rest)
    | .error e => .error e

/-- Primary: literal, name or parenthesised expression, with call suffixes
(`f(x)(y)` is grammatical in Python; calling a non-function is a runtime
`TypeError`). -/
def parseAtom : Nat → List Tok → Except PyErr (PExpr × List Tok)
  | 0, _ => .error .syntaxError
  | f + 1, ts =>
    match ts with
    | .int n :: r => parseCallSuffix f (.intL n) r
    | .float q :: r => parseCallSuffix f (.floatL q) r
    | .name s :: r => parseCallSuffix f (.nameE s) r
    | .lparen :: r =>
      match parseExpr f r with
      | .ok (a, .rparen :: r2) => parseCallSuffix f a r2
      | .ok _ => .error .syntaxError
      | .error e => .error e
    | _ => .error .syntaxError

def parseCallSuffix : Nat → PExpr → List Tok → Except PyErr (PExpr × List Tok)
  | 0, _, _ => .error .syntaxError
  | f + 1, a, ts =>
    match ts with
    | .lparen :: .rparen :: r2 => parseCallSuffix f (.call a .anil) r2
    | .lparen :: r =>
      match parseArgs f r with
      | .ok (args, r2) => parseCallSuffix f (.call a args) r2
      | .error e => .error e
    | _ => .ok (a, ts)

/-- Argument list after `(`; consumes the closing `)`, allows a trailing
comma. -/
def parseArgs : Nat → List Tok → Except PyErr (PArgs × List Tok)
  | 0, _ => .error .syntaxError
  | f + 1, ts =>
    match parseExpr f ts with
    | .ok (a, .comma :: .rparen :: r2) => .ok (.acons a .anil, r2)
    | .ok (a, .comma :: r) => (parseArgs f r).map (fun p => (.acons a p.1, p.2))
    | .ok (a, .rparen :: r) => .ok (.acons a .anil, r)
    | .ok _ => .error .syntaxError
    | .error e => .error e
end

/-! ### Arithmetic on Python values (the numeric tower) -/

def pyAdd (a b : PyVal) : Except PyErr PyVal :=
  match a, b with
  | .int x, .int y => .ok (.int (x + y))
  | .int x, .float q => .ok (.float (pAdd (pOfInt x) q))
  | .float p, .int y => .ok (.float (pAdd p (pOfInt y)))
  | .float p, .float q => .ok (.float (pAdd p q))
  | .str s, .str t => .ok (.str (s ++ t))
  | _, _ => .error .typeError

def pySub (a b : PyVal) : Except PyErr PyVal :=
  match a, b with
  | .int x, .int y => .ok (.int (x - y))
  | .int x, .float q => .ok (.float (pSub (pOfInt x) q))
  | .float p, .int y => .ok (.float (pSub p (pOfInt y)))
  | .float p, .float q => .ok (.float (pSub p q))
  | _, _ => .error .typeError

def pyMul (a b : PyVal) : Except PyErr PyVal :=
  match a, b with
  | .int x, .int y => .ok (.int (x * y))
  | .int x, .float q => .ok (.float (pMul (pOfInt x) q))
  | .float p, .int y => .ok (.float (pMul p (pOfInt y)))
  | .float p, .float q => .ok (.float (pMul p q))
  | _, _ => .error .typeError

/-- True division: always a float, `ZeroDivisionError` on a zero divisor. -/
def pyDiv (a b : PyVal) : Except PyErr PyVal :=
  match a, b with
  | .int x, .int y => if y = 0 then .error .zeroDivisionError else .ok (.float (pQ x y))
  | .int x, .float q =>
    if pIsZero q then .error .zeroDivisionError else .ok (.float (pDivP (pOfInt x) q))
  | .float p, .int y => if y = 0 then .error .zeroDivisionError else .ok (.float (pDivP p (pOfInt y)))
  | .float p, .float q => if pIsZero q then .error .zeroDivisionError else .ok (.float (pDivP p q))
  | _, _ => .error .typeError

/-- Floor division `//`. -/
def pyFdiv (a b : PyVal) : Except PyErr PyVal :=
  match a, b with
  | .int x, .int y => if y = 0 then .error .zeroDivisionError else .ok (.int (Int.fdiv x y))
  | .int x, .float q =>
    if pIsZero q then .error .zeroDivisionError
    else .ok (.float (pOfInt (pFloor (pDivP (pOfInt x) q))))
  | .float p, .int y =>
    if y = 0 then .error .zeroDivisionError
    else .ok (.float (pOfInt (pFloor (pDivP p (pOfInt y)))))
  | .float p, .float q =>
    if pIsZero q then .error .zeroDivisionError
    else .ok (.float (pOfInt (pFloor (pDivP p q))))
  | _, _ => .error .typeError

/-- Power: `int ** nonneg-int` stays `int`, otherwise float; `0 ** negative`
raises `ZeroDivisionError`.  A float power with a non-integral exponent is
outside the exactly-representable fragment and returns `0.0` (no claim
exercises it). -/
def pyPow (a b : PyVal) : Except PyErr PyVal :=
  match a, b with
  | .int x, .int y =>
    if 0 ≤ y then .ok (.int (ipowNat x y.toNat))
    else if x = 0 then .error .zeroDivisionError
    else .ok (.float (pPowInt (pOfInt x) y))
  | .int x, .float q => pyPowF (pOfInt x) q
  | .float p, .int y =>
    if pIsZero p ∧ y < 0 then .error .zeroDivisionError
    else .ok (.float (pPowInt p y))
  | .float p, .float q => pyPowF p q
  | _, _ => .error .typeError
where
  pyPowF (p q : PRat) : Except PyErr PyVal :=
    if q.den = 1 then
      if pIsZero p ∧ q.num < 0 then .error .zeroDivisionError
      else .ok (.float (pPowInt p q.num))
    else .ok (.float (pOfInt 0))

def pyNegV (a : PyVal) : Except PyErr PyVal :=
  match a with
  | .int n => .ok (.int (-n))
  | .float q => .ok (.float (pNeg q))
  | _ => .error .typeError

def pyPosV (a : PyVal) : Except PyErr PyVal :=
  match a with
  | .int n => .ok (.int n)
  | .float q => .ok (.float q)
  | _ => .error .typeError

/-! ### The modelled namespace (module constants and functions) -/

/-- `math.pi` at its shortest-repr float value. -/
def piF : PRat := pQ 3141592653589793 1000000000000000

/-- `math.e` at its shortest-repr float value. -/
def eF : PRat := pQ 2718281828459045 1000000000000000

/-- `phi = 1.61803398875` from the source. -/
def phiF : PRat := pQ 161803398875 100000000000

def funcNames : List String :=
  ["factorial", "choose", "gcd", "lcm", "comb", "perm", "floor", "ceil", "fabs"]

/-- Name resolution in the modelled namespace; anything else is a
`NameError` (Python would also resolve e.g. `sin`, which is outside the
exactly-computable model). -/
def lookupName (s : String) : Except PyErr PyVal :=
  if s = "pi" then .ok (.float piF)
  else if s = "e" then .ok (.float eF)
  else if s = "phi" then .ok (.float phiF)
  else if funcNames.contains s then .ok (.func s)
  else .error .nameError

/-- The source's `choose(n, k)` loop (Dalke's iterative binomial):
`ntok *= n; ktok *= t; n -= 1` for `t = 1..min(k, n-k)`, then `ntok // ktok`;
out-of-range `k` yields 0. -/
def chooseSrc (n k : Int) : Int :=
  if 0 ≤ k ∧ k ≤ n then
    let m := min k (n - k)
    let st := (List.range m.toNat).foldl
      (fun (st : Int × Int × Int) (i : Nat) =>
        (st.1 * st.2.1, st.2.1 - 1, st.2.2 * ((i : Int) + 1))) (1, n, 1)
    Int.fdiv st.1 st.2.2
  else 0

/-- Application of the modelled library functions; arity and argument-type
failures are `TypeError`s like in Python. -/
def applyFun (f : String) (args : List PyVal) : Except PyErr PyVal :=
  if f = "factorial" then
    match args with
    | [.int n] => if n < 0 then .error .valueError else .ok (.int (Nat.factorial n.toNat))
    | _ => .error .typeError
  else if f = "choose" then
    match args with
    | [.int n, .int k] => .ok (.int (chooseSrc n k))
    | [.int n, .float kq] =>
      -- `0 <= k <= n` compares fine on floats, then `range(min(k,..)+1)` raises
      if pLeB (pOfInt 0) kq && pLeB kq (pOfInt n) then .error .typeError else .ok (.int 0)
    | [.float nq, .int k] =>
      if (0 ≤ k : Bool) && pLeB (pOfInt k) nq then .error .typeError else .ok (.int 0)
    | [.float nq, .float kq] =>
      if pLeB (pOfInt 0) kq && pLeB kq nq then .error .typeError else .ok (.int 0)
    | _ => .error .typeError
  else if f = "gcd" then
    match args with
    | [.int a, .int b] => .ok (.int (gcdF (b.natAbs + 1) (a.natAbs, b.natAbs)))
    | _ => .error .typeError
  else if f = "lcm" then
    -- the source's lcm: abs(a*b) / gcd(a,b), with the module's hypot-abs,
    -- so the result is a float; gcd(0,0) = 0 raises ZeroDivisionError
    match args with
    | [.int a, .int b] =>
      let g := gcdF (b.natAbs + 1) (a.natAbs, b.natAbs)
      if g = 0 then .error .zeroDivisionError else .ok (.float (pQ ((a * b).natAbs) g))
    | _ => .error .typeError
  else if f = "comb" then
    match args with
    | [.int n, .int k] =>
      if n < 0 ∨ k < 0 then .error .valueError
      else .ok (.int (Nat.choose n.toNat k.toNat))
    | _ => .error .typeError
  else if f = "perm" then
    match args with
    | [.int n] => if n < 0 then .error .valueError else .ok (.int (Nat.factorial n.toNat))
    | [.int n, .int k] =>
      if n < 0 ∨ k < 0 then .error .valueError
      else .ok (.int (Nat.descFactorial n.toNat k.toNat))
    | _ => .error .typeError
  else if f = "floor" then
    match args with
    | [.int n] => .ok (.int n)
    | [.float q] => .ok (.int (pFloor q))
    | _ => .error .typeError
  else if f = "ceil" then
    match args with
    | [.int n] => .ok (.int n)
    | [.float q] => .ok (.int (pCeil q))
    | _ => .error .typeError
  else if f = "fabs" then
    match args with
    | [.int n] => .ok (.float (pOfInt (n.natAbs : Int)))
    | [.float q] => .ok (.float (pAbs q))
    | _ => .error .typeError
  else .error .typeError

mutual
/-- Evaluate the AST (operands left to right, like Python). -/
def evalE : PExpr → Except PyErr PyVal
  | .intL n => .ok (.int n)
  | .floatL q => .ok (.float q)
  | .nameE s => lookupName s
  | .neg a =>
    match evalE a with
    | .ok v => pyNegV v
    | .error e => .error e
  | .pos a =>
    match evalE a with
    | .ok v => pyPosV v
    | .error e => .error e
  | .add a b =>
    match evalE a with
    | .ok x => match evalE b with | .ok y => pyAdd x y | .error e => .error e
    | .error e => .error e
  | .sub a b =>
    match evalE a with
    | .ok x => match evalE b with | .ok y => pySub x y | .error e => .error e
    | .error e => .error e
  | .mul a b =>
    match evalE a with
    | .ok x => match evalE b with | .ok y => pyMul x y | .error e => .error e
    | .error e => .error e
  | .div a b =>
    match evalE a with
    | .ok x => match evalE b with | .ok y => pyDiv x y | .error e => .error e
    | .error e => .error e
  | .fdiv a b =>
    match evalE a with
    | .ok x => match evalE b with | .ok y => pyFdiv x y | .error e => .error e
    | .error e => .error e
  | .pow a b =>
    match evalE a with
    | .ok x => match evalE b with | .ok y => pyPow x y | .error e => .error e
    | .error e => .error e
  | .call f args =>
    match evalE f with
    | .ok (.func nm) =>
      match evalArgs args with
      | .ok vs => applyFun nm vs
      | .error e => .error e
    | .ok _ =>
      -- Python evaluates the arguments before failing with "not callable"
      match evalArgs args with
      | .ok _ => .error .typeError
      | .error e => .error e
    | .error e => .error e

def evalArgs : PArgs → Except PyErr (List PyVal)
  | .anil => .ok []
  | .acons a t =>
    match evalE a with
    | .ok v => (evalArgs t).map (v :: ·)
    | .error e => .error e
end

/-- The model of Python's `eval` on the normalised text. -/
def evalPy (s : List Char) : Except PyErr PyVal :=
  match tokenize (s.length + 1) s with
  | .error e => .error e
  | .ok ts =>
    match parseExpr (10 * (ts.length + 1)) ts with
    | .ok (a, []) => evalE a
    | .ok _ => .error .syntaxError
    | .error e => .error e

/-- `workout` (source lines 206-252): normalise, `eval`, and catch exactly
`SyntaxError` (bracketed normalised text) and `ValueError` (`?`-prefixed
normalised text); every other exception propagates. -/
def workoutC (s : List Char) : Except PyErr PyVal :=
  let n := normChars s
  match evalPy n with
  | .ok v => .ok v
  | .error .syntaxError => .ok (.str ⟨'[' :: (n ++ [']'])⟩)
  | .error .valueError => .ok (.str ⟨'?' :: n⟩)
  | .error e => .error e

def workout (s : String) : Except PyErr PyVal := workoutC s.data

/-! ### Rendering numbers: `str(int)`, `str(float)`, `'%g' %`, `float(str)` -/

/-- Little-endian decimal digits (fuel ≥ n + 1). -/
def digitsLE : Nat → Nat → List Nat :=
  fuelFix (fun rec n => if n < 10 then [n] else n % 10 :: rec (n / 10)) (fun _ => [])

/-- Decimal digit characters of `n`, most significant first. -/
def natReprC (n : Nat) : List Char := (digitsLE (n + 1) n).reverse.map digitChar

/-- `str` of a Python int. -/
def intReprC (n : Int) : List Char :=
  if n < 0 then '-' :: natReprC n.natAbs else natReprC n.natAbs

def intRepr (n : Int) : String := ⟨intReprC n⟩

/-- `(k, m)` with `n = p^k * m` and `p ∤ m` (fuel ≥ n + 1, `p ≥ 2`). -/
def stripFac (p : Nat) : Nat → Nat → Nat × Nat :=
  fuelFix (fun rec n =>
    if n % p = 0 && n ≠ 0 then
      let q := rec (n / p)
      (q.1 + 1, q.2)
    else (0, n)) (fun n => (0, n))

/-- Is `na / d ≥ 10 ^ e` (for positive `na`, `d`)? -/
def qGeTenPow (na d : Nat) (e : Int) : Bool :=
  if 0 ≤ e then 10 ^ e.toNat * d ≤ na else d ≤ na * 10 ^ e.natAbs

/-- `⌊log10 (na / d)⌋` for positive `na`, `d`. -/
def floorLog10 (na d : Nat) : Int :=
  let e0 : Int := ((digitsLE (na + 1) na).length : Int) - ((digitsLE (d + 1) d).length : Int)
  if qGeTenPow na d e0 then e0 else e0 - 1

/-- Round `na / d` to the nearest integer, ties to even (the rounding of
float→decimal conversion). -/
def roundHE (na d : Nat) : Nat :=
  let q := na / d
  let r := na % d
  if d < 2 * r then q + 1
  else if 2 * r < d then q
  else if q % 2 = 0 then q else q + 1

/-- `na / d` scaled by `10 ^ -e` as a numerator/denominator pair. -/
def scalePow10 (na d : Nat) (e : Int) : Nat × Nat :=
  if 0 ≤ e then (na, d * 10 ^ e.toNat) else (na * 10 ^ e.natAbs, d)

/-- Exponent suffix `e±XX` (at least two exponent digits). -/
def expChars (e : Int) : List Char :=
  let ds := natReprC e.natAbs
  let ds := if ds.length = 1 then '0' :: ds else ds
  'e' :: (if e < 0 then '-' else '+') :: ds

/-- Shared assembly for float rendering: significant digits `sig` (no
trailing zeros) and decimal exponent `E`; fixed notation for
`-4 ≤ E < hi`, scientific otherwise; `str(float)` (but not `%g`) keeps a
`.0` on integral values. -/
def assembleFloat (dotZero : Bool) (hi : Int) (neg : Bool) (sig : List Char) (e : Int) :
    List Char :=
  let body :=
    if -4 ≤ e ∧ e < hi then
      if (sig.length : Int) - 1 ≤ e then
        sig ++ List.replicate (e - ((sig.length : Int) - 1)).toNat '0' ++
          (if dotZero then ['.', '0'] else [])
      else if 0 ≤ e then
        sig.take (e + 1).toNat ++ '.' :: sig.drop (e + 1).toNat
      else
        '0' :: '.' :: List.replicate (-(e + 1)).toNat '0' ++ sig
    else
      let mant :=
        match sig with
        | [d] => [d]
        | d :: rest => d :: '.' :: rest
        | [] => ['0']
      mant ++ expChars e
  if neg then '-' :: body else body

/-- Significant digits and exponent of `na / d` rounded to `prec`
significant digits (positive `na`, `d`). -/
def sigDigits (prec : Nat) (na d : Nat) : List Char × Int :=
  let e := floorLog10 na d
  let sc := scalePow10 na d (e - (prec - 1))
  let m := roundHE sc.1 sc.2
  -- a carry `99…9 → 10…0` bumps the exponent
  let (m, e) := if 10 ^ prec ≤ m then (m / 10, e + 1) else (m, e)
  let ds := natReprC m
  (((ds.reverse.dropWhile (fun c => c = '0')).reverse), e)

/-- `str` of a Python float: exact shortest decimal for terminating
denominators (all values the claims touch); a 17-significant-digit
rounding otherwise (where CPython would print the shortest round-tripping
decimal — a last-digit divergence on values no claim exercises). -/
def floatReprC (q : PRat) : List Char :=
  if q.num = 0 then ['0', '.', '0']
  else
    let na := q.num.natAbs
    let d := q.den
    let s2 := stripFac 2 (d + 1) d
    let s5 := stripFac 5 (s2.2 + 1) s2.2
    if s5.2 = 1 then
      let t := max s2.1 s5.1
      let n10 := na * 2 ^ (t - s2.1) * 5 ^ (t - s5.1)
      let ds := natReprC n10
      let sig := (ds.reverse.dropWhile (fun c => c = '0')).reverse
      assembleFloat true 16 (q.num < 0) sig ((ds.length : Int) - 1 - t)
    else
      let se := sigDigits 17 na d
      assembleFloat true 16 (q.num < 0) se.1 se.2

/-- `'%g'` of a float value: 6 significant digits, trailing zeros dropped,
scientific for exponents outside `[-4, 6)`. -/
def gFormatQ (q : PRat) : List Char :=
  if q.num = 0 then ['0']
  else
    let se := sigDigits 6 q.num.natAbs q.den
    assembleFloat false 6 (q.num < 0) se.1 se.2

/-- `'%g' % v`: ints are converted to their float value first; a non-number
is a `TypeError` ("must be real number, not str"). -/
def percentG (v : PyVal) : Except PyErr (List Char) :=
  match v with
  | .int n => .ok (gFormatQ (pOfInt n))
  | .float q => .ok (gFormatQ q)
  | _ => .error .typeError

/-- Trailing part of a float literal for `float(str)`: optional exponent,
nothing else. -/
def parseFloatExp (mant : PRat) (r : List Char) : Except PyErr PRat :=
  match r with
  | [] => .ok mant
  | c :: rest =>
    if c = 'e' || c = 'E' then
      let signed : Int × List Char :=
        match rest with
        | '+' :: r2 => (1, r2)
        | '-' :: r2 => (-1, r2)
        | r2 => (1, r2)
      let ds := signed.2.takeWhile isDigitC
      let r3 := signed.2.dropWhile isDigitC
      if ds.isEmpty || !r3.isEmpty then .error .valueError
      else .ok (pMul mant (pPowInt (pOfInt 10) (signed.1 * (intValC ds : Int))))
    else .error .valueError

/-- `float(str)`: the decimal-literal fragment (always enough for a `%g`
output); anything else raises `ValueError`. -/
def parseFloatLit (s : List Char) : Except PyErr PRat :=
  let signed : Bool × List Char :=
    match s with
    | '-' :: r => (true, r)
    | '+' :: r => (false, r)
    | r => (false, r)
  let ip := signed.2.takeWhile isDigitC
  let r1 := signed.2.dropWhile isDigitC
  let run : Except PyErr PRat :=
    match r1 with
    | '.' :: r2 =>
      let fp := r2.takeWhile isDigitC
      let r3 := r2.dropWhile isDigitC
      if ip.isEmpty && fp.isEmpty then .error .valueError
      else parseFloatExp (pNorm ((intValC ip : Int) * ipowNat 10 fp.length + (intValC fp : Int))
        (ipowNat 10 fp.length)) r3
    | _ =>
      if ip.isEmpty then .error .valueError
      else parseFloatExp (pOfInt (intValC ip)) r1
  match run with
  | .ok q => .ok (if signed.1 then pNeg q else q)
  | .error e => .error e

/-- `str(v)` / `'{0}'.format(v)`: ints and floats render as above, a str is
itself; a function object's repr (address elided) is unreachable from the
claims. -/
def pyStrVal (v : PyVal) : String :=
  match v with
  | .int n => intRepr n
  | .float q => ⟨floatReprC q⟩
  | .str s => s
  | .func nm => "<function " ++ nm ++ ">"

/-! ### `fractions.Fraction(...).limit_denominator(1000000)` -/

/-- `Fraction(v)`: exact for ints and floats; the strings `workout` can
produce (`[…]`, `?…`) never parse, so a str raises `ValueError`. -/
def fractionOf (v : PyVal) : Except PyErr PRat :=
  match v with
  | .int n => .ok (pOfInt n)
  | .float q => .ok q
  | _ => .error .valueError

/-- Continued-fraction state of CPython's `limit_denominator`. -/
structure CF where
  p0 : Int
  q0 : Int
  p1 : Int
  q1 : Int
  n : Int
  d : Int
deriving DecidableEq

/-- The `while True` loop of `limit_denominator` (`d` strictly decreases, so
fuel `d + 1` suffices); returns the state at `break`. -/
def cfLoop : Nat → CF → CF :=
  fuelFix (fun rec st =>
    let a := Int.fdiv st.n st.d
    let q2 := st.q0 + a * st.q1
    if 1000000 < q2 then st
    else rec ⟨st.p1, st.q1, st.p0 + a * st.p1, q2, st.d, st.n - a * st.d⟩)
    (fun st => st)

/-- `Fraction.limit_denominator(1000000)`, CPython's algorithm: identity for
small denominators, else the best of the two continued-fraction bounds
(ties to the second). -/
def limitDen (q : PRat) : PRat :=
  if q.den ≤ 1000000 then q
  else
    let st := cfLoop (q.den + 1) ⟨0, 1, 1, 0, q.num, (q.den : Int)⟩
    let k := Int.fdiv (1000000 - st.q0) st.q1
    let b1 := pQ (st.p0 + k * st.p1) (st.q0 + k * st.q1)
    let b2 := pQ st.p1 st.q1
    if pLeB (pAbs (pSub b2 q)) (pAbs (pSub b1 q)) then b2 else b1

/-! ### `evaluate_expression` (source lines 312-347) -/

/-- The numeric value of a Python number (only applied after `percentG`
succeeded, so the catch-all is unreachable). -/
def pyNumQ (v : PyVal) : PRat :=
  match v with
  | .int n => pOfInt n
  | .float q => q
  | _ => pOfInt 0

/-- Python's `str.strip(chars)`: remove `ch` from both ends. -/
def stripBoth (ch : Char) (l : List Char) : List Char :=
  ((l.dropWhile (fun c => c = ch)).reverse.dropWhile (fun c => c = ch)).reverse

/-- `evaluate_expression`: dispatch on a trailing sentinel (`=` or `\`),
call `workout`, and render.  The `try` block around `float('%g' % answer)`
is modelled by running it as an `Except` computation and dispatching on the
error: `TypeError → 'EXPR = ANSWER'`, `ValueError → answer + '?'`; any
other exception propagates, as do exceptions from `workout` itself. -/
def evaluateExpressionC (target : List Char) : Except PyErr (List Char) :=
  if target.isEmpty then .ok []
  else if target.getLast? = some '=' then
    let t := stripBoth '=' target
    match workoutC t with
    | .error e => .error e
    | .ok answer =>
      let tryRes : Except PyErr (List Char) :=
        match percentG answer with
        | .error e => .error e
        | .ok gstr =>
          match parseFloatLit gstr with
          | .error e => .error e
          | .ok approx =>
            let rel : List Char :=
              if pLtB (pAbs (pSub (pyNumQ answer) approx)) (pQ 1 1000000000000000) then ['=']
              else '\\' :: (r"simeq").data
            .ok (t ++ ' ' :: rel ++ ' ' :: gFormatQ approx)
      match tryRes with
      | .ok r => .ok r
      | .error .typeError => .ok (t ++ (r" = ").data ++ (pyStrVal answer).data)
      | .error .valueError =>
        match answer with
        | .str s => .ok (s.data ++ ['?'])
        | _ => .error .typeError
      | .error e => .error e
  else if target.getLast? = some '\\' then
    let t := stripBoth '\\' target
    match workoutC t with
    | .error e => .error e
    | .ok answer =>
      match fractionOf answer with
      | .error e => .error e
      | .ok qv =>
        let lq := limitDen qv
        .ok (t ++ (r" = ").data ++ '{' :: (intReprC lq.num ++
          '\\' :: (r"over").data ++ natReprC lq.den ++ ['}']))
  else
    match workoutC target with
    | .error e => .error e
    | .ok v => .ok (pyStrVal v).data

def evaluateExpression (s : String) : Except PyErr String :=
  match evaluateExpressionC s.data with
  | .ok r => .ok ⟨r⟩
  | .error e => .error e

/-! ### `find_expression` (source lines 255-309) -/

/-- The scanner's alphabet string from the source:
`"'abcdefghijklmnopqrstuvwxyz1234567890!,.-+*/^\\{}()"`. -/
def alphabet : List Char :=
  Char.ofNat 39 :: (r"abcdefghijklmnopqrstuvwxyz1234567890!,.-+*/").data ++
    ['^', '\\', '{', '}', '(', ')']

/-- `'=' + alphabet`: the set accepted for the first accumulated character. -/
def eqAlphabet : List Char := '=' :: alphabet

/-- The expression alphabet exactly as the specification claims it
(letters, digits, and `' , . - + * / ^ \ { } ( )` — without `!`). -/
def specAlphabetC6 : List Char :=
  Char.ofNat 39 :: (r"abcdefghijklmnopqrstuvwxyz1234567890,.-+*/").data ++
    ['^', '\\', '{', '}', '(', ')']

/-- Python slice `line[0:e]` (a negative bound counts from the end). -/
def pySliceTo (l : List Char) (e : Int) : List Char :=
  if e < 0 then l.take (l.length - e.natAbs) else l.take e.toNat

/-- Python slice `line[a:]`. -/
def pySliceFrom (l : List Char) (a : Int) : List Char :=
  if a < 0 then l.drop (l.length - min a.natAbs l.length) else l.drop a.toNat

/-- The `while p >= 0` loop of `find_expression`.  `feLoop line k target col`
is the state about to examine index `k - 1` (so `k = 0` is loop exit with
`p = -1`).  Result: `some i` for a `break` at index `i` (the source then
restores `p = i`), `none` for running off the left end, together with the
final `target` and working `col`.  `line[p]` with `p ≥ len` is an
`IndexError`, which can only happen on the first probe. -/
def feLoop (line : List Char) : Nat → List Char → Int →
    Except PyErr (Option Nat × List Char × Int)
  | 0, target, col => .ok (none, target, col)
  | k + 1, target, col =>
    match line.get? k with
    | none => .error .indexError
    | some c =>
      if target.isEmpty then
        if c ∈ eqAlphabet then feLoop line k [c] col
        else if c = ' ' then feLoop line k [] (col - 1)
        else feLoop line k [] col
      else if c ∈ alphabet then feLoop line k (c :: target) col
      else .ok (some k, target, col)

/-- `find_expression(line, col)` on character lists; the cursor position is
a Python int (negative values skip the loop, like the source). -/
def findExpressionC (line : List Char) (col : Int) :
    Except PyErr (List Char × List Char × List Char) :=
  if line.isEmpty then .ok ([], [], [])
  else if col = 0 then .ok ([], [], line)
  else if col < 0 then .ok (pySliceTo line (col + 1), [], pySliceFrom line (col + 1))
  else
    match feLoop line (col.toNat + 1) [] col with
    | .error e => .error e
    | .ok (brk, target, col') =>
      let pEnd : Int :=
        match brk with
        | some i => (i : Int) + 1
        | none => 0
      .ok (pySliceTo line pEnd, target, pySliceFrom line (col' + 1))

/-- `find_expression` on strings. -/
def findExpression (line : String) (col : Int) : Except PyErr (String × String × String) :=
  match findExpressionC line.data col with
  | .ok (a, b, c) => .ok (⟨a⟩, ⟨b⟩, ⟨c⟩)
  | .error e => .error e

/-! ### C10 machinery: characters of a decimal rendering -/

/-- Characters that can appear in the decimal rendering of a number:
digits, a leading minus, the decimal dot. -/
def isFloatChar (c : Char) : Bool := isDigitC c || c = '-' || c = '.'

/-- Everything after the first `.` (if any) is a digit — the shape of a
fixed-notation decimal rendering, preserved on suffixes. -/
def dotShape : List Char → Bool
  | [] => true
  | c :: t => if c = '.' then t.all isDigitC else dotShape t

/-- The branch test of `floatReprC`: the denominator divides a power of 10.
This holds of the exact value of every IEEE float (their denominators are
powers of 2), so it restricts only the model's exact rationals, never the
values the concrete program renders. -/
def termDenB (d : Nat) : Bool :=
  (stripFac 5 ((stripFac 2 (d + 1) d).2 + 1) (stripFac 2 (d + 1) d).2).2 == 1

/-! ## Claims

Each claim of the specification is settled below; helper lemmas come first,
then one theorem per claim (with a counterexample theorem where the claim
fails as stated, and a witness where the settled theorem has hypotheses). -/

theorem workout_of_eval_error (s : String) (err : PyErr)
    (hs : err ≠ .syntaxError) (hv : err ≠ .valueError)
    (h : evalPy (normChars s.data) = .error err) : workout s = .error err := by
  simp only [workout, workoutC]
  rw [h]
  cases err with
  | syntaxError => exact absurd rfl hs
  | valueError => exact absurd rfl hv
  | _ => rfl

/-- C1, counterexample: `evaluate_expression` lets exceptions escape — a
division by zero raises `ZeroDivisionError` through `workout`, and an
unrecognized identifier raises `NameError`; neither is converted to an
in-place result string. -/
theorem c1_counterexample :
    evaluateExpression ("1/0") = .error .zeroDivisionError ∧
      evaluateExpression ("qqq") = .error .nameError := ⟨rfl, rfl⟩

/-- C1 (amended): `workout` catches only `SyntaxError` (bracketed text) and
`ValueError` (`?`-prefixed text); every other exception raised while
evaluating the normalised expression — `ZeroDivisionError` from division by
zero, `NameError` from an unrecognized identifier, `TypeError`, ... —
propagates out of `workout` and out of `evaluate_expression` (shown here on
the plain, non-sentinel path). -/
theorem c1_uncaught_errors_propagate (s : String) (err : PyErr)
    (hs : err ≠ .syntaxError) (hv : err ≠ .valueError)
    (h : evalPy (normalize s).data = .error err) :
    workout s = .error err ∧
      (s.data.getLast? ≠ some '=' → s.data.getLast? ≠ some '\\' →
        evaluateExpression s = .error err) := by
  have h' : evalPy (normChars s.data) = .error err := h
  have hw : workout s = .error err := workout_of_eval_error s err hs hv h'
  refine ⟨hw, fun h1 h2 => ?_⟩
  have hne : ¬ s.data.isEmpty = true := by
    intro hnil
    rw [List.isEmpty_iff] at hnil
    rw [hnil] at h'
    have h0 : (Except.error PyErr.syntaxError : Except PyErr PyVal) = .error err := h'
    simp only [Except.error.injEq] at h0
    exact hs h0.symm
  show (match evaluateExpressionC s.data with
    | Except.ok r => Except.ok (⟨r⟩ : String)
    | Except.error e => Except.error e) = Except.error err
  unfold evaluateExpressionC
  rw [if_neg hne, if_neg h1, if_neg h2]
  have hwc : workoutC s.data = .error err := hw
  rw [hwc]

/-- C1, witness: the theorem applied at `'1/0'` and `ZeroDivisionError`. -/
theorem c1_witness :
    workout ("1/0") = .error .zeroDivisionError ∧
      evaluateExpression ("1/0") = .error .zeroDivisionError := by
  have h := c1_uncaught_errors_propagate ("1/0") .zeroDivisionError
    (by simp) (by simp) (by rfl)
  exact ⟨h.1, h.2 (by decide) (by decide)⟩

/-- C3, counterexample: on a syntax error `workout` brackets the *rewritten*
text, not the original input: `workout('2^')` yields `'[2**]'`, where the
claim requires `'[2^]'`. -/
theorem c3_counterexample :
    workout ("2^") = .ok (.str ("[2**]")) ∧ ("[2**]" : String) ≠ "[" ++ "2^" ++ "]" :=
  ⟨rfl, by decide⟩

/-- C3 (amended): when the normalised form of the input fails to parse,
`workout` returns the *normalised* text (not the original input) enclosed
in `[` and `]`. -/
theorem c3_syntax_error_brackets_normalized (s : String)
    (h : evalPy (normalize s).data = .error .syntaxError) :
    workout s = .ok (.str ("[" ++ normalize s ++ "]")) := by
  have h' : evalPy (normChars s.data) = .error .syntaxError := h
  simp only [workout, workoutC]
  rw [h']
  have hd : ("[" ++ normalize s ++ "]").data = '[' :: ((normalize s).data ++ [']']) := by
    simp [String.data_append]
  show Except.ok (PyVal.str ⟨'[' :: (normChars s.data ++ [']'])⟩) = _
  rw [show (Except.ok (PyVal.str ("[" ++ normalize s ++ "]")) : Except PyErr PyVal) =
    .ok (.str ⟨("[" ++ normalize s ++ "]").data⟩) from rfl, hd]
  rfl

/-- C3, witness: the theorem applied at `'2^'`, whose normalised form `2**`
does not parse; the bracketed result shows the rewritten text. -/
theorem c3_witness :
    evalPy (normalize ("2^")).data = .error .syntaxError ∧
      workout ("2^") = .ok (.str ("[" ++ normalize ("2^") ++ "]")) ∧
      normalize ("2^") = "2**" := by
  have h1 : evalPy (normalize ("2^")).data = .error .syntaxError := rfl
  exact ⟨h1, c3_syntax_error_brackets_normalized ("2^") h1, rfl⟩

/-- C4: the `ERROR_TEXT?` rendering never happens.  A value error (negative
factorial) is caught inside `workout` and returned as the string
`?factorial(0-1)`; `'%g'` applied to that string raises `TypeError`, so the
`EXPR = ERROR_TEXT` branch renders the result, and the
`except ValueError: return answer + '?'` branch is unreachable. -/
theorem c4_value_error_renders_eq_form :
    workout ("factorial(0-1)") = .ok (.str ("?factorial(0-1)")) ∧
      evaluateExpression ("factorial(0-1)=") = .ok ("factorial(0-1) = ?factorial(0-1)") :=
  ⟨rfl, rfl⟩

/-! #### C2: valid cursor columns -/

theorem feLoop_isOk (line : List Char) :
    ∀ (k : Nat) (t : List Char) (col : Int), k ≤ line.length →
      ∃ r, feLoop line k t col = .ok r := by
  intro k
  induction k with
  | zero => exact fun t col _ => ⟨(none, t, col), rfl⟩
  | succ k ih =>
    intro t col hk
    obtain ⟨c, hc⟩ : ∃ c, line.get? k = some c := by
      rw [List.get?_eq_get (by omega)]
      exact ⟨_, rfl⟩
    simp only [feLoop, hc]
    by_cases ht : t.isEmpty = true
    · rw [if_pos ht]
      by_cases h1 : c ∈ eqAlphabet
      · rw [if_pos h1]; exact ih _ _ (by omega)
      · rw [if_neg h1]
        by_cases h2 : c = ' '
        · rw [if_pos h2]; exact ih _ _ (by omega)
        · rw [if_neg h2]; exact ih _ _ (by omega)
    · rw [if_neg ht]
      by_cases h1 : c ∈ alphabet
      · rw [if_pos h1]; exact ih _ _ (by omega)
      · rw [if_neg h1]; exact ⟨_, rfl⟩

/-- C2, counterexample: the boundary column `col = length(line)` is *not*
valid — `find_expression('a', 1)` raises `IndexError` on its first probe
`line[1]`. -/
theorem c2_counterexample : findExpression ("a") 1 = .error .indexError := rfl

/-- C2 (amended): `find_expression` returns a triple without raising for
every cursor column in `[0, length(line) - 1]`; at `col = length(line)` on
a nonempty line it raises `IndexError` (the loop's first access is
`line[col]`). -/
theorem c2_valid_columns :
    (∀ (line : List Char) (col : Int), 0 ≤ col → col < line.length →
      ∃ r, findExpressionC line col = .ok r) ∧
    (∀ line : List Char, line ≠ [] →
      findExpressionC line line.length = .error .indexError) := by
  constructor
  · intro line col h0 hlt
    unfold findExpressionC
    by_cases hemp : line.isEmpty = true
    · rw [if_pos hemp]; exact ⟨_, rfl⟩
    · rw [if_neg hemp]
      by_cases hc0 : col = 0
      · rw [if_pos hc0]; exact ⟨_, rfl⟩
      · rw [if_neg hc0, if_neg (by omega)]
        obtain ⟨⟨brk, t, c'⟩, hr⟩ :=
          feLoop_isOk line (col.toNat + 1) [] col (by omega)
        rw [hr]
        exact ⟨_, rfl⟩
  · intro line hne
    have hlen : 1 ≤ line.length := by
      cases line with
      | nil => exact absurd rfl hne
      | cons a l => simp
    unfold findExpressionC
    rw [if_neg (by simp [hne]), if_neg (by omega), if_neg (by omega)]
    have htn : ((line.length : Int)).toNat = line.length := rfl
    rw [htn]
    have hnone : line.get? line.length = none := by
      rw [List.get?_eq_none]
    simp only [feLoop, hnone]

/-- C2, witness: the amended theorem applied at `'ab'`, column 1 (valid) and
at `'a'`, column 1 = length (IndexError). -/
theorem c2_witness :
    (∃ r, findExpressionC ("ab").data 1 = .ok r) ∧
      findExpressionC ("a").data (("a").data).length = .error .indexError :=
  ⟨c2_valid_columns.1 ("ab").data 1 (by omega) (by decide),
    c2_valid_columns.2 ("a").data (by decide)⟩

/-! #### C5: leading blanks -/

/-- C5, counterexample: with the cursor on the last of three trailing
blanks, *all three* blanks are absorbed (each decrementing the working
column) and the scan continues into `12`; under the claim the second blank
would have terminated the scan with an empty expression. -/
theorem c5_counterexample :
    findExpression ("12   ") 4 = .ok (("" : String), ("12" : String), ("   " : String)) ∧
      findExpression ("12  ") 3 = .ok (("" : String), ("12" : String), ("  " : String)) :=
  ⟨rfl, rfl⟩

/-- C5 (amended): *every* blank met while the accumulator is still empty is
skipped and decrements the working column (not just the first; the scan
never terminates on such a blank); a blank met after accumulation has
started terminates the scan. -/
theorem c5_blank_handling (line : List Char) (k : Nat) (t : List Char) (col : Int)
    (hc : line.get? k = some ' ') :
    feLoop line (k + 1) [] col = feLoop line k [] (col - 1) ∧
      (t ≠ [] → feLoop line (k + 1) t col = .ok (some k, t, col)) := by
  constructor
  · simp only [feLoop, hc]
    rfl
  · intro ht
    simp only [feLoop, hc]
    rw [if_neg (fun hh => ht (List.isEmpty_iff.mp hh)), if_neg (by decide)]

/-- C5, witness: the blank at index 4 of `'12   '` is skipped with the
column decremented when the accumulator is empty, and terminates the scan
when it is not. -/
theorem c5_witness :
    feLoop ("12   ").data 5 [] 4 = feLoop ("12   ").data 4 [] 3 ∧
      feLoop ("12   ").data 5 ['2'] 4 = .ok (some 4, ['2'], 4) := by
  have h := c5_blank_handling ("12   ").data 4 ['2'] 4 (by rfl)
  exact ⟨h.1, h.2 (by decide)⟩

/-! #### C6: the expression alphabet -/

/-- C6, counterexample: `!` is outside the claimed alphabet yet does not
stop the leftward scan — it is accumulated into the expression
(`find_expression('#1!', 2)` returns expression `1!`), and it is not the
first-accepted `=`. -/
theorem c6_counterexample :
    findExpression ("#1!") 2 = .ok (("#" : String), ("1!" : String), ("" : String)) ∧
      '!' ∈ ("1!" : String).data ∧ '!' ∉ specAlphabetC6 ∧ '!' ≠ '=' :=
  ⟨rfl, by decide, by decide, by decide⟩

theorem feLoop_target_closed (line : List Char) :
    ∀ (k : Nat) (t : List Char) (col : Int) (r : Option Nat × List Char × Int),
      feLoop line k t col = .ok r →
      (∀ c ∈ t, c ∈ eqAlphabet) → (∀ c ∈ t.dropLast, c ∈ alphabet) →
      (∀ c ∈ r.2.1, c ∈ eqAlphabet) ∧ (∀ c ∈ r.2.1.dropLast, c ∈ alphabet) := by
  intro k
  induction k with
  | zero =>
    intro t col r h h1 h2
    simp only [feLoop, Except.ok.injEq] at h
    rw [← h]
    exact ⟨h1, h2⟩
  | succ k ih =>
    intro t col r h h1 h2
    cases hg : line.get? k with
    | none =>
      simp only [feLoop, hg] at h
      exact Except.noConfusion h
    | some c =>
      simp only [feLoop, hg] at h
      by_cases ht : t.isEmpty = true
      · rw [if_pos ht] at h
        by_cases hm : c ∈ eqAlphabet
        · rw [if_pos hm] at h
          refine ih [c] col r h ?_ ?_
          · intro x hx
            rw [List.mem_singleton] at hx
            exact hx ▸ hm
          · intro x hx
            simp at hx
        · rw [if_neg hm] at h
          by_cases hsp : c = ' '
          · rw [if_pos hsp] at h; exact ih [] (col - 1) r h (by simp) (by simp)
          · rw [if_neg hsp] at h; exact ih [] col r h (by simp) (by simp)
      · rw [if_neg ht] at h
        by_cases hm : c ∈ alphabet
        · rw [if_pos hm] at h
          refine ih (c :: t) col r h ?_ ?_
          · intro x hx
            rcases List.mem_cons.mp hx with hx | hx
            · exact hx ▸ List.mem_cons_of_mem _ hm
            · exact h1 x hx
          · intro x hx
            obtain ⟨y, ys, rfl⟩ : ∃ y ys, t = y :: ys := by
              cases t with
              | nil => simp at ht
              | cons y ys => exact ⟨y, ys, rfl⟩
            rcases List.mem_cons.mp hx with hx | hx
            · exact hx ▸ hm
            · exact h2 x hx
        · rw [if_neg hm] at h
          simp only [Except.ok.injEq] at h
          rw [← h]
          exact ⟨h1, h2⟩

/-- C6 (amended): the characters `find_expression` accumulates all lie in
the code's alphabet `' a-z 0-9 ! , . - + * / ^ \ { } ( )` together with `=`;
the `=` can only be the first character accepted from the cursor (the last
character of the expression), all others lie in the alphabet proper — which
*includes* `!`, missing from the claim.  (Out-of-alphabet characters stop
the scan only once accumulation has started; before that they are
skipped.) -/
theorem c6_expression_alphabet (line : List Char) (col : Int)
    (pre expr suf : List Char)
    (h : findExpressionC line col = .ok (pre, expr, suf)) :
    ((∀ c ∈ expr, c ∈ eqAlphabet) ∧ (∀ c ∈ expr.dropLast, c ∈ alphabet)) ∧
      '!' ∈ alphabet := by
  refine ⟨?_, by decide⟩
  unfold findExpressionC at h
  by_cases hemp : line.isEmpty = true
  · rw [if_pos hemp] at h
    simp only [Except.ok.injEq, Prod.mk.injEq] at h
    rw [← h.2.1]
    exact ⟨by simp, by simp⟩
  · rw [if_neg hemp] at h
    by_cases hc0 : col = 0
    · rw [if_pos hc0] at h
      simp only [Except.ok.injEq, Prod.mk.injEq] at h
      rw [← h.2.1]
      exact ⟨by simp, by simp⟩
    · rw [if_neg hc0] at h
      by_cases hneg : col < 0
      · rw [if_pos hneg] at h
        simp only [Except.ok.injEq, Prod.mk.injEq] at h
        rw [← h.2.1]
        exact ⟨by simp, by simp⟩
      · rw [if_neg hneg] at h
        cases hfe : feLoop line (col.toNat + 1) [] col with
        | error e => rw [hfe] at h; exact absurd h (by simp)
        | ok r =>
          obtain ⟨brk, t, c'⟩ := r
          rw [hfe] at h
          simp only [Except.ok.injEq, Prod.mk.injEq] at h
          have := feLoop_target_closed line (col.toNat + 1) [] col (brk, t, c') hfe
            (by simp) (by simp)
          rw [← h.2.1]
          exact this

/-- C6, witness: the amended theorem applied to the scan of
`'String 3+4='` at column 10, whose expression is `3+4=`. -/
theorem c6_witness :
    ((∀ c ∈ ("3+4=" : String).data, c ∈ eqAlphabet) ∧
      (∀ c ∈ ("3+4=" : String).data.dropLast, c ∈ alphabet)) ∧
      '!' ∈ alphabet :=
  c6_expression_alphabet ("String 3+4=").data 10 ("String ").data ("3+4=").data
    ("").data (by rfl)

/-! #### C7: reconstruction of the line from the scanned parts -/

/-- C7, counterexample: a character outside the alphabet under the cursor is
silently *dropped* while the accumulator is still empty: scanning `1+1#x` at
column 3 yields `('', '1+1', 'x')`, and `'' ++ '1+1' ++ 'x' = '1+1x'` does
not occur contiguously in `1+1#x`. -/
theorem c7_counterexample :
    findExpression ("1+1#x") 3 = .ok (("" : String), ("1+1" : String), ("x" : String)) ∧
      ¬ (("" : String).data ++ ("1+1" : String).data ++ ("x" : String).data) <:+:
        ("1+1#x" : String).data :=
  ⟨rfl, by decide⟩

theorem feLoop_reconstruct (line : List Char) :
    ∀ (k : Nat) (t : List Char) (col : Int),
      k + t.length ≤ line.length →
      col = (k : Int) - 1 + t.length →
      t = (line.drop k).take t.length →
      (∀ i, i < k → ∀ c, line.get? i = some c → c = ' ' ∨ c ∈ eqAlphabet) →
      ∃ brk t' col', feLoop line k t col = .ok (brk, t', col') ∧
        pySliceTo line (match brk with | some i => (i : Int) + 1 | none => 0) ++ t' ++
          pySliceFrom line (col' + 1) = line := by
  intro k
  induction k with
  | zero =>
    intro t col hlen hcol ht _
    refine ⟨none, t, col, rfl, ?_⟩
    have h1 : pySliceTo line 0 = [] := by simp [pySliceTo]
    have h2 : pySliceFrom line (col + 1) = line.drop t.length := by
      unfold pySliceFrom
      rw [if_neg (by omega)]
      congr 1 <;> omega
    rw [h1, h2, List.nil_append]
    obtain ⟨tl, htl⟩ : ∃ tl, t.length = tl := ⟨_, rfl⟩
    rw [htl] at ht ⊢
    rw [List.drop_zero] at ht
    rw [ht]
    exact List.take_append_drop tl line
  | succ k ih =>
    intro t col hlen hcol ht H
    have hk : k < line.length := by omega
    obtain ⟨c, hc⟩ : ∃ c, line.get? k = some c := ⟨line.get ⟨k, hk⟩, List.get?_eq_get hk⟩
    have hgk : line.get ⟨k, hk⟩ = c := by
      have h0 := List.get?_eq_get hk
      rw [hc] at h0
      exact (Option.some.inj h0).symm
    have hdk : line.drop k = c :: line.drop (k + 1) := by
      rw [List.drop_eq_get_cons hk, hgk]
    simp only [feLoop, hc]
    by_cases hte : t.isEmpty = true
    · have ht0 : t = [] := List.isEmpty_iff.mp hte
      subst ht0
      rw [if_pos (show ([] : List Char).isEmpty = true from rfl)]
      by_cases hm : c ∈ eqAlphabet
      · rw [if_pos hm]
        refine ih [c] col (by simpa using hk) (by simp at hcol ⊢; omega) ?_
          (fun i hi => H i (by omega))
        rw [hdk]
        rfl
      · rw [if_neg hm]
        have hsp : c = ' ' := by
          rcases H k (by omega) c hc with h | h
          · exact h
          · exact absurd h hm
        rw [if_pos hsp]
        exact ih [] (col - 1) (by simpa using hk.le) (by simp at hcol ⊢; omega) rfl
          (fun i hi => H i (by omega))
    · rw [if_neg hte]
      by_cases hm : c ∈ alphabet
      · rw [if_pos hm]
        refine ih (c :: t) col (by simp; omega) (by simp at hcol ⊢; omega) ?_
          (fun i hi => H i (by omega))
        rw [hdk]
        simp only [List.length_cons, List.take_succ_cons]
        rw [← ht]
      · rw [if_neg hm]
        refine ⟨some k, t, col, rfl, ?_⟩
        have h1 : pySliceTo line ((k : Int) + 1) = line.take (k + 1) := by
          unfold pySliceTo
          rw [if_neg (by omega)]
          congr 1 <;> omega
        have h2 : pySliceFrom line (col + 1) = line.drop (k + 1 + t.length) := by
          unfold pySliceFrom
          rw [if_neg (by omega)]
          congr 1 <;> omega
        rw [h1, h2]
        have ht' := ht
        obtain ⟨tl, htl⟩ : ∃ tl, t.length = tl := ⟨_, rfl⟩
        rw [htl] at ht' ⊢
        rw [ht']
        have hdd : line.drop (k + 1 + tl) = (line.drop (k + 1)).drop tl := by
          rw [List.drop_drop]
        rw [hdd, List.append_assoc, List.take_append_drop, List.take_append_drop]

/-- C7 (amended): `prefix ++ expression ++ suffix` reconstructs the *whole*
line — absorbed blanks land back in the suffix via the decremented column —
provided every character at or left of the cursor is a blank or in the
scanner's alphabet (with `=`).  The counterexample shows the claim fails
without that proviso: a non-blank out-of-alphabet character under the
cursor is dropped, and the concatenation is then not even a contiguous
substring. -/
theorem c7_reconstruction (line : List Char) (col : Nat)
    (hcol : col < line.length)
    (H : ∀ i, i ≤ col → ∀ c, line.get? i = some c → c = ' ' ∨ c ∈ eqAlphabet) :
    ∃ pre expr suf, findExpressionC line (col : Int) = .ok (pre, expr, suf) ∧
      pre ++ expr ++ suf = line := by
  unfold findExpressionC
  by_cases hemp : line.isEmpty = true
  · rw [List.isEmpty_iff] at hemp
    rw [hemp] at hcol
    simp at hcol
  · rw [if_neg hemp]
    by_cases hc0 : (col : Int) = 0
    · rw [if_pos hc0]
      exact ⟨[], [], line, rfl, rfl⟩
    · rw [if_neg hc0, if_neg (by omega)]
      obtain ⟨brk, t', col', hfe, hrec⟩ :=
        feLoop_reconstruct line (col + 1) [] col (by simp; omega)
          (by simp only [List.length_nil]; push_cast; omega) rfl
          (fun i hi c hc => H i (by omega) c hc)
      have htn : ((col : Int)).toNat + 1 = col + 1 := by omega
      rw [htn, hfe]
      exact ⟨_, t', _, rfl, hrec⟩

/-- C7, witness: the amended theorem applied to `'12 34'` at column 4: the
scan stops at the blank and `'12 ' ++ '34' ++ '' = '12 34'`. -/
theorem c7_witness :
    ∃ pre expr suf,
      findExpressionC ("12 34").data (4 : Int) = .ok (pre, expr, suf) ∧
        pre ++ expr ++ suf = ("12 34").data := by
  refine c7_reconstruction ("12 34").data 4 (by decide) ?_
  intro i hi c hc
  have hall : ∀ x ∈ ("12 34").data, x = ' ' ∨ x ∈ eqAlphabet := by decide
  exact hall c (List.get?_mem hc)

/-! #### C10: idempotence — digit-string lemmas -/

theorem digitsLE_succ (f n : Nat) :
    digitsLE (f + 1) n = if n < 10 then [n] else n % 10 :: digitsLE f (n / 10) := rfl

theorem digitsLE_val : ∀ f n, n < f → valLE (digitsLE f n) = n := by
  intro f
  induction f with
  | zero => omega
  | succ f ih =>
    intro n hn
    rw [digitsLE_succ]
    by_cases h : n < 10
    · rw [if_pos h]
      show 10 * 0 + n = n
      omega
    · rw [if_neg h]
      show 10 * valLE (digitsLE f (n / 10)) + n % 10 = n
      rw [ih (n / 10) (by omega)]
      omega

theorem digitsLE_lt10 : ∀ f n d, d ∈ digitsLE f n → d < 10 := by
  intro f
  induction f with
  | zero => intro n d hd; exact absurd hd (by simp [digitsLE, fuelFix_zero])
  | succ f ih =>
    intro n d hd
    rw [digitsLE_succ] at hd
    by_cases h : n < 10
    · rw [if_pos h, List.mem_singleton] at hd
      omega
    · rw [if_neg h, List.mem_cons] at hd
      rcases hd with hd | hd
      · omega
      · exact ih _ _ hd

theorem digitsLE_ne_nil (f n : Nat) : digitsLE (f + 1) n ≠ [] := by
  rw [digitsLE_succ]
  by_cases h : n < 10
  · rw [if_pos h]; simp
  · rw [if_neg h]; simp

theorem digitsLE_head (f n : Nat) :
    (digitsLE (f + 1) n).head? = some (if n < 10 then n else n % 10) := by
  rw [digitsLE_succ]
  by_cases h : n < 10
  · rw [if_pos h, if_pos h]; rfl
  · rw [if_neg h, if_neg h]; rfl

theorem digitsLE_getLast_ne_zero :
    ∀ f n d, n < f → 0 < n → (digitsLE f n).getLast? = some d → d ≠ 0 := by
  intro f
  induction f with
  | zero => omega
  | succ f ih =>
    intro n d hn h0 hl
    rw [digitsLE_succ] at hl
    by_cases h : n < 10
    · rw [if_pos h] at hl
      simp only [List.getLast?_singleton, Option.some.injEq] at hl
      omega
    · rw [if_neg h] at hl
      have hf : 10 ≤ f := by omega
      obtain ⟨e, es, he⟩ : ∃ e es, digitsLE f (n / 10) = e :: es := by
        obtain ⟨f', rfl⟩ : ∃ f', f = f' + 1 := ⟨f - 1, by omega⟩
        cases hh : digitsLE (f' + 1) (n / 10) with
        | nil => exact absurd hh (digitsLE_ne_nil f' (n / 10))
        | cons e es => exact ⟨e, es, rfl⟩
      rw [he, List.getLast?_cons_cons] at hl
      exact ih (n / 10) d (by omega) (by omega) (he ▸ hl)

theorem charDigitVal_digitChar (d : Nat) (hd : d < 10) :
    charDigitVal (digitChar d) = d := by
  interval_cases d <;> rfl

theorem isDigitC_digitChar (d : Nat) (hd : d < 10) :
    isDigitC (digitChar d) = true := by
  interval_cases d <;> rfl

theorem digitChar_ne_zero_char (d : Nat) (hd : d < 10) (h0 : d ≠ 0) :
    digitChar d ≠ '0' := by
  interval_cases d <;> simp_all <;> decide

/-- Folding the decimal-value accumulator over rendered digits recovers the
little-endian value. -/
theorem foldl_digits_val :
    ∀ (l : List Nat) (A : Nat), (∀ d ∈ l, d < 10) →
      (l.map digitChar).foldl (fun a c => 10 * a + charDigitVal c) A =
        l.foldl (fun a d => 10 * a + d) A := by
  intro l
  induction l with
  | nil => intro A _; rfl
  | cons d t ih =>
    intro A hd
    simp only [List.map_cons, List.foldl_cons]
    rw [charDigitVal_digitChar d (hd d (by simp))]
    exact ih _ (fun x hx => hd x (by simp [hx]))

theorem foldl_rev_valLE :
    ∀ (l : List Nat) , l.reverse.foldl (fun a d => 10 * a + d) 0 = valLE l := by
  intro l
  rw [List.foldl_reverse]
  induction l with
  | nil => rfl
  | cons d t ih =>
    simp only [List.foldr_cons, valLE]
    rw [ih]

theorem intValC_natReprC (n : Nat) : intValC (natReprC n) = n := by
  unfold intValC natReprC
  rw [show (digitsLE (n + 1) n).reverse.map digitChar =
    ((digitsLE (n + 1) n).reverse).map digitChar from rfl]
  rw [foldl_digits_val _ _ (fun d hd => digitsLE_lt10 _ _ _ (List.mem_reverse.mp hd))]
  rw [foldl_rev_valLE]
  exact digitsLE_val (n + 1) n (by omega)

theorem natReprC_ne_nil (n : Nat) : natReprC n ≠ [] := by
  unfold natReprC
  intro h
  rw [List.map_eq_nil, List.reverse_eq_nil_iff] at h
  exact digitsLE_ne_nil n n h

theorem natReprC_digits (n : Nat) : ∀ c ∈ natReprC n, isDigitC c = true := by
  intro c hc
  unfold natReprC at hc
  obtain ⟨d, hd, rfl⟩ := List.mem_map.mp hc
  exact isDigitC_digitChar d (digitsLE_lt10 _ _ _ (List.mem_reverse.mp hd))

theorem natReprC_getLast (n : Nat) :
    ∃ c, (natReprC n).getLast? = some c ∧ isDigitC c = true := by
  unfold natReprC
  rw [List.getLast?_map, List.getLast?_reverse, digitsLE_head]
  refine ⟨digitChar (if n < 10 then n else n % 10), rfl, ?_⟩
  exact isDigitC_digitChar _ (by split <;> omega)

theorem natReprC_head_ne_zero (n : Nat) (h0 : 0 < n) :
    ∀ c, (natReprC n).head? = some c → c ≠ '0' := by
  intro c hc
  unfold natReprC at hc
  rw [List.head?_map, List.head?_reverse] at hc
  cases hl : (digitsLE (n + 1) n).getLast? with
  | none => rw [hl] at hc; exact absurd hc (by simp)
  | some d =>
    rw [hl] at hc
    simp only [Option.map_some', Option.some.injEq] at hc
    have hd10 : d < 10 := by
      obtain ⟨hne, heq⟩ := List.mem_getLast?_eq_getLast (l := digitsLE (n + 1) n) (x := d) hl
      exact digitsLE_lt10 _ _ _ (heq ▸ List.getLast_mem hne)
    have hdz := digitsLE_getLast_ne_zero (n + 1) n d (by omega) h0 hl
    rw [← hc]
    exact digitChar_ne_zero_char d hd10 hdz

theorem takeWhile_all {p : Char → Bool} :
    ∀ l : List Char, (∀ c ∈ l, p c = true) → l.takeWhile p = l := by
  intro l
  induction l with
  | nil => intro _; rfl
  | cons c t ih =>
    intro h
    rw [List.takeWhile_cons, h c (by simp)]
    rw [ih (fun x hx => h x (by simp [hx]))]
    rfl

theorem dropWhile_all {p : Char → Bool} :
    ∀ l : List Char, (∀ c ∈ l, p c = true) → l.dropWhile p = [] := by
  intro l
  induction l with
  | nil => intro _; rfl
  | cons c t ih =>
    intro h
    rw [List.dropWhile_cons, h c (by simp)]
    exact ih (fun x hx => h x (by simp [hx]))

theorem isDigitC_ne_special (c : Char) (h : isDigitC c = true) :
    c ≠ ' ' ∧ c ≠ '(' ∧ c ≠ ')' ∧ c ≠ ',' ∧ c ≠ '+' ∧ c ≠ '-' ∧ c ≠ '*' ∧
      c ≠ '/' ∧ c ≠ '=' ∧ c ≠ '\\' := by
  simp only [isDigitC, Bool.and_eq_true, decide_eq_true_eq] at h
  refine ⟨?_, ?_, ?_, ?_, ?_, ?_, ?_, ?_, ?_, ?_⟩ <;>
    (intro he; subst he; revert h; decide)

theorem tokenize_nil : ∀ f, tokenize f [] = .ok [] := by
  intro f
  cases f with
  | zero => rfl
  | succ f => rfl

/-- One definitional step of the tokenizer on a cons cell. -/
theorem tokenize_cons (f : Nat) (c : Char) (rest : List Char) :
    tokenize (f + 1) (c :: rest) =
    (if c = ' ' then tokenize f rest
    else if c = '(' then (tokenize f rest).map (Tok.lparen :: ·)
    else if c = ')' then (tokenize f rest).map (Tok.rparen :: ·)
    else if c = ',' then (tokenize f rest).map (Tok.comma :: ·)
    else if c = '+' then (tokenize f rest).map (Tok.plus :: ·)
    else if c = '-' then (tokenize f rest).map (Tok.minus :: ·)
    else if c = '*' then
      match rest with
      | '*' :: r2 => (tokenize f r2).map (Tok.dstar :: ·)
      | _ => (tokenize f rest).map (Tok.star :: ·)
    else if c = '/' then
      match rest with
      | '/' :: r2 => (tokenize f r2).map (Tok.dslash :: ·)
      | _ => (tokenize f rest).map (Tok.slash :: ·)
    else if isDigitC c || c = '.' then
      match readNum (c :: rest) with
      | .error e => .error e
      | .ok (t, r) => (tokenize f r).map (t :: ·)
    else if isAlphaC c || c = '_' then
      let nm := (c :: rest).takeWhile isNameC
      let r := (c :: rest).dropWhile isNameC
      (tokenize f r).map (Tok.name ⟨nm⟩ :: ·)
    else .error .syntaxError) := rfl

/-- Tokenizing a pure digit string with no bad leading zero yields a single
int token carrying its decimal value. -/
theorem tokenize_digits (ds : List Char) (hne : ds ≠ [])
    (hd : ∀ c ∈ ds, isDigitC c = true)
    (hlz : ¬(ds.head? = some '0' ∧ ds.any (fun d => d ≠ '0') = true)) (f : Nat) :
    tokenize (f + 1) ds = .ok [.int (intValC ds)] := by
  obtain ⟨c, rest, rfl⟩ : ∃ c rest, ds = c :: rest := by
    cases ds with
    | nil => exact absurd rfl hne
    | cons c rest => exact ⟨c, rest, rfl⟩
  have hc : isDigitC c = true := hd c (by simp)
  obtain ⟨n1, n2, n3, n4, n5, n6, n7, n8, _, _⟩ := isDigitC_ne_special c hc
  show tokenize (f + 1) (c :: rest) = _
  rw [tokenize_cons]
  rw [if_neg n1, if_neg n2, if_neg n3, if_neg n4, if_neg n5, if_neg n6, if_neg n7,
    if_neg n8, if_pos (by rw [hc]; rfl)]
  have hrn : readNum (c :: rest) = .ok (.int (intValC (c :: rest)), []) := by
    unfold readNum
    rw [takeWhile_all _ hd, dropWhile_all _ hd]
    simp only []
    have hlzb : ¬(((c :: rest).head? = some '0' &&
        (c :: rest).any (fun d => d ≠ '0')) = true) := by
      intro hcontra
      rw [Bool.and_eq_true, decide_eq_true_eq] at hcontra
      exact hlz ⟨hcontra.1, hcontra.2⟩
    rw [if_neg hlzb]
  rw [hrn]
  show (tokenize f []).map (Tok.int (intValC (c :: rest) : Int) :: ·) = _
  rw [tokenize_nil]
  rfl

/-- `evalPy` on the decimal rendering of an integer returns exactly that
integer. -/
theorem evalPy_intReprC (n : Int) : evalPy (intReprC n) = .ok (.int n) := by
  by_cases hn : n < 0
  · have hrepr : intReprC n = '-' :: natReprC n.natAbs := by
      unfold intReprC
      rw [if_pos hn]
    rw [hrepr]
    have hlz : ¬((natReprC n.natAbs).head? = some '0' ∧
        (natReprC n.natAbs).any (fun d => d ≠ '0') = true) := by
      rintro ⟨h1, _⟩
      exact natReprC_head_ne_zero n.natAbs (by omega) '0' h1 rfl
    have htok : tokenize ((natReprC n.natAbs).length + 1) (natReprC n.natAbs) =
        .ok [.int (intValC (natReprC n.natAbs))] :=
      tokenize_digits _ (natReprC_ne_nil _) (natReprC_digits _) hlz _
    rw [intValC_natReprC] at htok
    show (match tokenize (('-' :: natReprC n.natAbs).length + 1)
        ('-' :: natReprC n.natAbs) with
      | .error e => Except.error e
      | .ok ts =>
        match parseExpr (10 * (ts.length + 1)) ts with
        | .ok (a, []) => evalE a
        | .ok _ => Except.error PyErr.syntaxError
        | .error e => Except.error e) = Except.ok (PyVal.int n)
    have hstep : tokenize (('-' :: natReprC n.natAbs).length + 1)
        ('-' :: natReprC n.natAbs) = .ok [.minus, .int (n.natAbs : Int)] := by
      rw [show ('-' :: natReprC n.natAbs).length + 1 = ((natReprC n.natAbs).length + 1) + 1
        from rfl]
      rw [tokenize_cons]
      rw [if_neg (by decide), if_neg (by decide), if_neg (by decide),
        if_neg (by decide), if_neg (by decide), if_pos rfl]
      rw [htok]
      rfl
    rw [hstep]
    show evalE (.neg (.intL (n.natAbs : Int))) = Except.ok (PyVal.int n)
    show Except.ok (PyVal.int (-(n.natAbs : Int))) = Except.ok (PyVal.int n)
    congr 1
    congr 1
    omega
  · have hrepr : intReprC n = natReprC n.natAbs := by
      unfold intReprC
      rw [if_neg hn]
    rw [hrepr]
    have hlz : ¬((natReprC n.natAbs).head? = some '0' ∧
        (natReprC n.natAbs).any (fun d => d ≠ '0') = true) := by
      by_cases h0 : n.natAbs = 0
      · rw [h0]
        decide
      · rintro ⟨h1, _⟩
        exact natReprC_head_ne_zero n.natAbs (by omega) '0' h1 rfl
    have htok : tokenize ((natReprC n.natAbs).length + 1) (natReprC n.natAbs) =
        .ok [.int (intValC (natReprC n.natAbs))] :=
      tokenize_digits _ (natReprC_ne_nil _) (natReprC_digits _) hlz _
    rw [intValC_natReprC] at htok
    show (match tokenize ((natReprC n.natAbs).length + 1) (natReprC n.natAbs) with
      | .error e => Except.error e
      | .ok ts =>
        match parseExpr (10 * (ts.length + 1)) ts with
        | .ok (a, []) => evalE a
        | .ok _ => Except.error PyErr.syntaxError
        | .error e => Except.error e) = Except.ok (PyVal.int n)
    rw [htok]
    show Except.ok (PyVal.int (n.natAbs : Int)) = Except.ok (PyVal.int n)
    congr 1
    congr 1
    omega

/-! ### C10 machinery: `gcdF`, `pNorm` and uniqueness of reduced fractions -/

theorem gcdF_eq_gcd : ∀ f a b, b < f → gcdF f (a, b) = Nat.gcd a b := by
  intro f
  induction f with
  | zero => intro a b h; omega
  | succ f ih =>
    intro a b h
    show (if b = 0 then a else gcdF f (b, a % b)) = Nat.gcd a b
    by_cases hb : b = 0
    · rw [if_pos hb, hb, Nat.gcd_zero_right]
    · rw [if_neg hb]
      rw [ih b (a % b) (by have := Nat.mod_lt a (Nat.pos_of_ne_zero hb); omega)]
      rw [Nat.gcd_comm b (a % b), ← Nat.gcd_rec b a, Nat.gcd_comm b a]

/-- `pNorm` over a positive denominator divides out the gcd. -/
theorem pNorm_of_pos (n : Int) (m : Nat) (hm : 0 < m) :
    pNorm n (m : Int) = ⟨n / (Nat.gcd n.natAbs m : Int), m / Nat.gcd n.natAbs m⟩ := by
  have hne : (m : Int) ≠ 0 := Int.natCast_ne_zero.mpr (by omega)
  have hnlt : ¬ ((m : Int) < 0) := by omega
  simp only [pNorm]
  rw [if_neg hne, if_neg hnlt]
  simp only [one_mul, Int.toNat_natCast]
  rw [gcdF_eq_gcd (m + 1) n.natAbs m (by omega)]

theorem pNorm_zero_of_pos (m : Nat) (hm : 0 < m) : pNorm 0 (m : Int) = ⟨0, 1⟩ := by
  rw [pNorm_of_pos 0 m hm]
  simp only [Int.natAbs_zero, Nat.gcd_zero_left]
  rw [Int.zero_ediv, Nat.div_self hm]

/-- Equal coprime fractions with positive denominators are identical. -/
theorem coprime_frac_unique (a1 d1 a2 d2 : Nat) (hd1 : 0 < d1) (hd2 : 0 < d2)
    (hc1 : Nat.Coprime a1 d1) (hc2 : Nat.Coprime a2 d2)
    (hx : a1 * d2 = a2 * d1) : a1 = a2 ∧ d1 = d2 := by
  have hdvd12 : d1 ∣ d2 := by
    have hof : d1 ∣ a1 * d2 := by rw [hx]; exact dvd_mul_left d1 a2
    exact Nat.Coprime.dvd_of_dvd_mul_left (Nat.Coprime.symm hc1) hof
  have hdvd21 : d2 ∣ d1 := by
    have hof : d2 ∣ a2 * d1 := by rw [← hx]; exact dvd_mul_left d2 a1
    exact Nat.Coprime.dvd_of_dvd_mul_left (Nat.Coprime.symm hc2) hof
  have hD : d1 = d2 := Nat.dvd_antisymm hdvd12 hdvd21
  subst hD
  exact ⟨Nat.eq_of_mul_eq_mul_right hd1 hx, rfl⟩

/-- Reducing by the gcd sends equal fractions to equal pairs. -/
theorem reduced_frac_unique (a1 d1 a2 d2 : Nat) (h1 : 0 < d1) (h2 : 0 < d2)
    (hx : a1 * d2 = a2 * d1) :
    a1 / Nat.gcd a1 d1 = a2 / Nat.gcd a2 d2 ∧ d1 / Nat.gcd a1 d1 = d2 / Nat.gcd a2 d2 := by
  by_cases ha1 : a1 = 0
  · subst ha1
    have ha2 : a2 = 0 := by
      rw [zero_mul] at hx
      rcases Nat.mul_eq_zero.mp hx.symm with h | h
      · exact h
      · omega
    subst ha2
    rw [Nat.gcd_zero_left, Nat.gcd_zero_left, Nat.zero_div, Nat.zero_div,
      Nat.div_self h1, Nat.div_self h2]
    exact ⟨rfl, rfl⟩
  · have hg1 : 0 < Nat.gcd a1 d1 := Nat.gcd_pos_of_pos_right a1 h1
    have hg2 : 0 < Nat.gcd a2 d2 := Nat.gcd_pos_of_pos_right a2 h2
    have hA1 : a1 / Nat.gcd a1 d1 * Nat.gcd a1 d1 = a1 :=
      Nat.div_mul_cancel (Nat.gcd_dvd_left a1 d1)
    have hD1 : d1 / Nat.gcd a1 d1 * Nat.gcd a1 d1 = d1 :=
      Nat.div_mul_cancel (Nat.gcd_dvd_right a1 d1)
    have hA2 : a2 / Nat.gcd a2 d2 * Nat.gcd a2 d2 = a2 :=
      Nat.div_mul_cancel (Nat.gcd_dvd_left a2 d2)
    have hD2 : d2 / Nat.gcd a2 d2 * Nat.gcd a2 d2 = d2 :=
      Nat.div_mul_cancel (Nat.gcd_dvd_right a2 d2)
    have hq1 : 0 < d1 / Nat.gcd a1 d1 :=
      Nat.div_pos (Nat.le_of_dvd h1 (Nat.gcd_dvd_right a1 d1)) hg1
    have hq2 : 0 < d2 / Nat.gcd a2 d2 :=
      Nat.div_pos (Nat.le_of_dvd h2 (Nat.gcd_dvd_right a2 d2)) hg2
    have hcross : (a1 / Nat.gcd a1 d1) * (d2 / Nat.gcd a2 d2) =
        (a2 / Nat.gcd a2 d2) * (d1 / Nat.gcd a1 d1) := by
      apply Nat.eq_of_mul_eq_mul_right (Nat.mul_pos hg1 hg2)
      calc (a1 / Nat.gcd a1 d1) * (d2 / Nat.gcd a2 d2) * (Nat.gcd a1 d1 * Nat.gcd a2 d2)
          = (a1 / Nat.gcd a1 d1 * Nat.gcd a1 d1) * (d2 / Nat.gcd a2 d2 * Nat.gcd a2 d2) := by
            ring
        _ = a1 * d2 := by rw [hA1, hD2]
        _ = a2 * d1 := hx
        _ = (a2 / Nat.gcd a2 d2 * Nat.gcd a2 d2) * (d1 / Nat.gcd a1 d1 * Nat.gcd a1 d1) := by
            rw [hA2, hD1]
        _ = (a2 / Nat.gcd a2 d2) * (d1 / Nat.gcd a1 d1) * (Nat.gcd a1 d1 * Nat.gcd a2 d2) := by
            ring
    exact coprime_frac_unique _ _ _ _ hq1 hq2
      (Nat.coprime_div_gcd_div_gcd hg1) (Nat.coprime_div_gcd_div_gcd hg2) hcross

/-- Euclidean division of a nonnegative dividend by a `Nat` cast agrees with
`Nat` division on the absolute value. -/
theorem ediv_natAbs_nonneg (n : Int) (g : Nat) (hn : 0 ≤ n) :
    n / (g : Int) = ((n.natAbs / g : Nat) : Int) := by
  have e : n = ((n.natAbs : Int)) := by omega
  calc n / (g : Int) = ((n.natAbs : Int)) / (g : Int) := by rw [← e]
    _ = ((n.natAbs / g : Nat) : Int) := (Int.natCast_div _ _).symm

/-- Dividing out an exact divisor of a negative dividend negates the `Nat`
quotient of the absolute value. -/
theorem ediv_natAbs_neg (n : Int) (g : Nat) (hn : n < 0)
    (hd : (g : Int) ∣ (n.natAbs : Int)) :
    n / (g : Int) = -((n.natAbs / g : Nat) : Int) := by
  have e : n = -((n.natAbs : Int)) := by omega
  calc n / (g : Int) = -((n.natAbs : Int)) / (g : Int) := by rw [← e]
    _ = -(((n.natAbs : Int)) / (g : Int)) := Int.neg_ediv_of_dvd hd
    _ = -((n.natAbs / g : Nat) : Int) := by rw [← Int.natCast_div]

/-- `pNorm` is well defined on fractions: cross-equal numerator/denominator
pairs with positive denominators normalise to the same rational. -/
theorem pNorm_eq_of_cross (n1 n2 : Int) (m1 m2 : Nat) (hm1 : 0 < m1) (hm2 : 0 < m2)
    (hx : n1 * (m2 : Int) = n2 * (m1 : Int)) :
    pNorm n1 (m1 : Int) = pNorm n2 (m2 : Int) := by
  rw [pNorm_of_pos n1 m1 hm1, pNorm_of_pos n2 m2 hm2]
  rcases lt_trichotomy n1 0 with hn1 | hn1 | hn1
  · have hn2 : n2 < 0 := by
      rcases lt_trichotomy n2 0 with h | h | h
      · exact h
      · exfalso
        rw [h, zero_mul] at hx
        rcases mul_eq_zero.mp hx with h' | h'
        · omega
        · omega
      · exfalso
        have hL : n1 * (m2 : Int) < 0 :=
          mul_neg_of_neg_of_pos hn1 (Int.natCast_pos.mpr hm2)
        have hR : 0 < n2 * (m1 : Int) := mul_pos h (Int.natCast_pos.mpr hm1)
        linarith
    have hcastx : n1.natAbs * m2 = n2.natAbs * m1 := by
      have e1 : (n1.natAbs : Int) = -n1 := by omega
      have e2 : (n2.natAbs : Int) = -n2 := by omega
      have hz : (n1.natAbs : Int) * (m2 : Int) = (n2.natAbs : Int) * (m1 : Int) := by
        rw [e1, e2, neg_mul, neg_mul, hx]
      exact_mod_cast hz
    obtain ⟨hA, hD⟩ := reduced_frac_unique n1.natAbs m1 n2.natAbs m2 hm1 hm2 hcastx
    have hgd1 : ((Nat.gcd n1.natAbs m1 : Nat) : Int) ∣ (n1.natAbs : Int) :=
      Int.natCast_dvd_natCast.mpr (Nat.gcd_dvd_left _ _)
    have hgd2 : ((Nat.gcd n2.natAbs m2 : Nat) : Int) ∣ (n2.natAbs : Int) :=
      Int.natCast_dvd_natCast.mpr (Nat.gcd_dvd_left _ _)
    rw [ediv_natAbs_neg n1 _ hn1 hgd1, ediv_natAbs_neg n2 _ hn2 hgd2, hA, hD]
  · have hn2 : n2 = 0 := by
      rw [hn1, zero_mul] at hx
      rcases mul_eq_zero.mp hx.symm with h' | h'
      · exact h'
      · exfalso
        omega
    rw [hn1, hn2]
    simp only [Int.natAbs_zero, Nat.gcd_zero_left, Int.zero_ediv]
    rw [Nat.div_self hm1, Nat.div_self hm2]
  · have hn2 : 0 < n2 := by
      rcases lt_trichotomy n2 0 with h | h | h
      · exfalso
        have hL : 0 < n1 * (m2 : Int) :=
          mul_pos hn1 (Int.natCast_pos.mpr hm2)
        have hR : n2 * (m1 : Int) < 0 :=
          mul_neg_of_neg_of_pos h (Int.natCast_pos.mpr hm1)
        linarith
      · exfalso
        rw [h, zero_mul] at hx
        rcases mul_eq_zero.mp hx with h' | h'
        · omega
        · omega
      · exact h
    have hcastx : n1.natAbs * m2 = n2.natAbs * m1 := by
      have e1 : (n1.natAbs : Int) = n1 := by omega
      have e2 : (n2.natAbs : Int) = n2 := by omega
      have hz : (n1.natAbs : Int) * (m2 : Int) = (n2.natAbs : Int) * (m1 : Int) := by
        rw [e1, e2, hx]
      exact_mod_cast hz
    obtain ⟨hA, hD⟩ := reduced_frac_unique n1.natAbs m1 n2.natAbs m2 hm1 hm2 hcastx
    rw [ediv_natAbs_nonneg n1 _ (by omega), ediv_natAbs_nonneg n2 _ (by omega), hA, hD]

/-- `pNorm` commutes with negation over a positive denominator. -/
theorem pNorm_neg_of_pos (n : Int) (m : Nat) (hm : 0 < m) :
    pNorm (-n) (m : Int) = pNeg (pNorm n (m : Int)) := by
  rw [pNorm_of_pos n m hm, pNorm_of_pos (-n) m hm]
  simp only [Int.natAbs_neg, pNeg]
  rw [Int.neg_ediv_of_dvd
    (Int.dvd_natAbs.mp (Int.natCast_dvd_natCast.mpr (Nat.gcd_dvd_left n.natAbs m)))]

/-! ### C10 machinery: `stripFac` is exact prime-power stripping -/

theorem stripFac_spec (p : Nat) (hp : 2 ≤ p) :
    ∀ f n, n < f → 0 < n →
      n = p ^ (stripFac p f n).1 * (stripFac p f n).2 ∧ ¬ (p ∣ (stripFac p f n).2) := by
  intro f
  induction f with
  | zero => intro n h; omega
  | succ f ih =>
    intro n hnf hn
    have hstep : stripFac p (f + 1) n =
        (if n % p = 0 && n ≠ 0 then
          ((stripFac p f (n / p)).1 + 1, (stripFac p f (n / p)).2)
        else (0, n)) := rfl
    by_cases hdvd : p ∣ n
    · have hc : (n % p = 0 && n ≠ 0) = true := by
        rw [Bool.and_eq_true, decide_eq_true_eq, decide_eq_true_eq]
        obtain ⟨k, rfl⟩ := hdvd
        exact ⟨Nat.mul_mod_right p k, by omega⟩
      rw [hstep, if_pos hc]
      have hlt : n / p < f := by
        have h1 : n / p < n := Nat.div_lt_self hn (by omega)
        omega
      have hpos : 0 < n / p := Nat.div_pos (Nat.le_of_dvd hn hdvd) (by omega)
      obtain ⟨ihe, ihd⟩ := ih (n / p) hlt hpos
      refine ⟨?_, ihd⟩
      have hcancel : n / p * p = n := Nat.div_mul_cancel hdvd
      calc n = n / p * p := hcancel.symm
        _ = (p ^ (stripFac p f (n / p)).1 * (stripFac p f (n / p)).2) * p := by rw [← ihe]
        _ = p ^ ((stripFac p f (n / p)).1 + 1) * (stripFac p f (n / p)).2 := by
            rw [pow_succ]; ring
    · have hc : ¬ ((n % p = 0 && n ≠ 0) = true) := by
        rw [Bool.and_eq_true, decide_eq_true_eq, decide_eq_true_eq]
        rintro ⟨hmod, -⟩
        exact hdvd (Nat.dvd_of_mod_eq_zero hmod)
      rw [hstep, if_neg hc]
      exact ⟨by rw [pow_zero, one_mul], hdvd⟩

/-! ### C10 machinery: decimal digit strings and their values -/

theorem intValC_foldl_acc :
    ∀ (l : List Char) (A : Nat),
      l.foldl (fun a c => 10 * a + charDigitVal c) A = A * 10 ^ l.length + intValC l := by
  intro l
  induction l with
  | nil => intro A; simp [intValC]
  | cons c t ih =>
    intro A
    show t.foldl _ (10 * A + charDigitVal c) = A * 10 ^ (t.length + 1) + intValC (c :: t)
    rw [ih (10 * A + charDigitVal c)]
    have h2 : intValC (c :: t) = charDigitVal c * 10 ^ t.length + intValC t := by
      show t.foldl _ (10 * 0 + charDigitVal c) = _
      rw [ih (10 * 0 + charDigitVal c)]
      ring
    rw [h2]
    ring

theorem intValC_append (a b : List Char) :
    intValC (a ++ b) = intValC a * 10 ^ b.length + intValC b := by
  show (a ++ b).foldl _ 0 = _
  rw [List.foldl_append]
  exact intValC_foldl_acc b (a.foldl _ 0)

theorem intValC_replicate_zero (k : Nat) : intValC (List.replicate k '0') = 0 := by
  induction k with
  | zero => rfl
  | succ k ih =>
    show (List.replicate (k + 1) '0').foldl _ 0 = 0
    rw [List.replicate_succ]
    show (List.replicate k '0').foldl _ (10 * 0 + charDigitVal '0') = 0
    rw [show (10 * 0 + charDigitVal '0') = 0 from rfl]
    exact ih

theorem takeWhile_append_stop (p : Char → Bool) :
    ∀ (l : List Char) (x : Char) (r : List Char), (∀ c ∈ l, p c = true) → p x = false →
      (l ++ x :: r).takeWhile p = l ∧ (l ++ x :: r).dropWhile p = x :: r := by
  intro l
  induction l with
  | nil =>
    intro x r _ hx
    refine ⟨?_, ?_⟩
    · show (x :: r).takeWhile p = []
      rw [List.takeWhile_cons, if_neg (by simp [hx])]
    · show (x :: r).dropWhile p = x :: r
      rw [List.dropWhile_cons, if_neg (by simp [hx])]
  | cons a t ih =>
    intro x r h hx
    have ha : p a = true := h a (by simp)
    obtain ⟨ih1, ih2⟩ := ih x r (fun c hc => h c (by simp [hc])) hx
    refine ⟨?_, ?_⟩
    · show ((a :: t) ++ x :: r).takeWhile p = a :: t
      rw [List.cons_append, List.takeWhile_cons, if_pos (by simp [ha]), ih1]
    · show ((a :: t) ++ x :: r).dropWhile p = x :: r
      rw [List.cons_append, List.dropWhile_cons, if_pos (by simp [ha]), ih2]

theorem getLast?_append_right : ∀ (l1 l2 : List Char), l2 ≠ [] →
    (l1 ++ l2).getLast? = l2.getLast? := by
  intro l1
  induction l1 with
  | nil => intro l2 _; rfl
  | cons a t ih =>
    intro l2 h2
    obtain ⟨c, r, rfl⟩ : ∃ c r, l2 = c :: r := by
      cases l2 with
      | nil => exact absurd rfl h2
      | cons c r => exact ⟨c, r, rfl⟩
    obtain ⟨x, xs, hx⟩ : ∃ x xs, t ++ c :: r = x :: xs := by
      cases hh : t ++ c :: r with
      | nil => exact absurd hh (by simp)
      | cons x xs => exact ⟨x, xs, rfl⟩
    show (a :: (t ++ c :: r)).getLast? = (c :: r).getLast?
    rw [hx, List.getLast?_cons_cons, ← hx, ih (c :: r) (by simp)]

/-- Trailing-zero stripping decomposes a list into the stripped part and a
block of `'0'`s. -/
theorem strip_zeros_decomp (ds : List Char) :
    ∃ z, ds = (ds.reverse.dropWhile (fun c => c = '0')).reverse ++ List.replicate z '0' := by
  have hmem : ∀ b ∈ ds.reverse.takeWhile (fun c => c = '0'), b = '0' := by
    intro b hb
    have := List.mem_takeWhile_imp hb
    simpa using this
  have h2 := List.eq_replicate_of_mem hmem
  refine ⟨(ds.reverse.takeWhile (fun c => c = '0')).length, ?_⟩
  conv_lhs => rw [← List.reverse_reverse ds,
    ← List.takeWhile_append_dropWhile (fun c => decide (c = '0')) ds.reverse]
  rw [List.reverse_append]
  congr 1
  conv_lhs => rw [h2]
  rw [List.reverse_replicate]

theorem ipowNat_ten (k : Nat) : ipowNat (10 : Int) k = ((10 ^ k : Nat) : Int) := by
  induction k with
  | zero => rfl
  | succ k ih =>
    show (10 : Int) * ipowNat (10 : Int) k = _
    rw [ih, pow_succ]
    push_cast
    ring

/-! ### C10 machinery: the rendering character class -/

theorem digit_ne_dot (c : Char) (h : isDigitC c = true) : c ≠ '.' := by
  intro he
  rw [he] at h
  exact Bool.noConfusion h

theorem isFloatChar_of_digit (c : Char) (h : isDigitC c = true) : isFloatChar c = true := by
  simp only [isFloatChar, Bool.or_eq_true]
  tauto

theorem isFloatChar_of_digitDash (c : Char) (h : isDigitDash c = true) :
    isFloatChar c = true := by
  simp only [isDigitDash, Bool.or_eq_true] at h
  simp only [isFloatChar, Bool.or_eq_true]
  tauto

theorem isFloatChar_cases (c : Char) (h : isFloatChar c = true) :
    isDigitC c = true ∨ c = '-' ∨ c = '.' := by
  simp only [isFloatChar, Bool.or_eq_true, decide_eq_true_eq] at h
  tauto

theorem dotShape_of_no_dot : ∀ (l : List Char), (∀ c ∈ l, c ≠ '.') → dotShape l = true := by
  intro l
  induction l with
  | nil => intro _; rfl
  | cons a t ih =>
    intro h
    rw [dotShape, if_neg (h a (by simp))]
    exact ih (fun c hc => h c (by simp [hc]))

theorem dotShape_of_digits (l : List Char) (h : ∀ c ∈ l, isDigitC c = true) :
    dotShape l = true :=
  dotShape_of_no_dot l (fun c hc => digit_ne_dot c (h c hc))

theorem dotShape_tail (c : Char) (t : List Char) (h : dotShape (c :: t) = true) :
    dotShape t = true := by
  by_cases hc : c = '.'
  · subst hc
    rw [dotShape, if_pos rfl] at h
    exact dotShape_of_digits t (fun x hx => List.all_eq_true.mp h x hx)
  · rw [dotShape, if_neg hc] at h
    exact h

theorem dotShape_append_dot : ∀ (ip fp : List Char), (∀ c ∈ ip, isDigitC c = true) →
    (∀ c ∈ fp, isDigitC c = true) → dotShape (ip ++ '.' :: fp) = true := by
  intro ip
  induction ip with
  | nil =>
    intro fp _ hfp
    show dotShape ('.' :: fp) = true
    rw [dotShape, if_pos rfl]
    exact List.all_eq_true.mpr hfp
  | cons a t ih =>
    intro fp hip hfp
    show dotShape (a :: (t ++ '.' :: fp)) = true
    rw [dotShape, if_neg (digit_ne_dot a (hip a (by simp)))]
    exact ih fp (fun c hc => hip c (by simp [hc])) hfp

theorem dotShape_digits_after : ∀ (ip t2 : List Char), (∀ c ∈ ip, isDigitC c = true) →
    dotShape (ip ++ '.' :: t2) = true → ∀ c ∈ t2, isDigitC c = true := by
  intro ip
  induction ip with
  | nil =>
    intro t2 _ hd
    have hd' : dotShape ('.' :: t2) = true := hd
    rw [dotShape, if_pos rfl] at hd'
    exact fun c hc => List.all_eq_true.mp hd' c hc
  | cons a t ih =>
    intro t2 hip hd
    have hd' : dotShape (a :: (t ++ '.' :: t2)) = true := hd
    rw [dotShape, if_neg (digit_ne_dot a (hip a (by simp)))] at hd'
    exact ih t2 (fun c hc => hip c (by simp [hc])) hd'


theorem isDigitDash_of_digit (c : Char) (h : isDigitC c = true) : isDigitDash c = true := by
  rw [isDigitDash, h]
  rfl

/-- `str.replace` leaves a digit/dash/dot string unchanged when the pattern
starts with another kind of character. -/
theorem repGo_id (p : Char) (pr rep : List Char) (hp : isFloatChar p = false) :
    ∀ s : List Char, (∀ c ∈ s, isFloatChar c = true) → repGo (p :: pr) rep 0 s = s := by
  intro s
  induction s with
  | nil => intro _; rfl
  | cons c t ih =>
    intro h
    rw [repGo]
    have hpc : ((p :: pr).isPrefixOf (c :: t)) = false := by
      have hne : (p == c) = false := by
        rw [beq_eq_false_iff_ne]
        intro he
        rw [he, h c (by simp)] at hp
        exact Bool.noConfusion hp
      simp [List.isPrefixOf, hne]
    rw [hpc]
    show c :: repGo (p :: pr) rep 0 t = c :: t
    rw [ih (fun x hx => h x (by simp [hx]))]

/-- `re.sub` leaves a string unchanged when the matcher never fires on a
digit/dash/dot suffix of fixed-decimal shape. -/
theorem reGo_id (m : List Char → Option (List Char × Nat))
    (hm : ∀ s', (∀ c ∈ s', isFloatChar c = true) → dotShape s' = true → m s' = none) :
    ∀ s : List Char, (∀ c ∈ s, isFloatChar c = true) → dotShape s = true → reGo m 0 s = s := by
  intro s
  induction s with
  | nil => intro _ _; rfl
  | cons c t ih =>
    intro h hd
    rw [reGo]
    show (match m (c :: t) with
      | some (rep, used) => rep ++ reGo m (used - 1) t
      | none => c :: reGo m 0 t) = c :: t
    rw [hm (c :: t) h hd]
    rw [ih (fun x hx => h x (by simp [hx])) (dotShape_tail c t hd)]

theorem overMatch_none (s : List Char) (h : ∀ c ∈ s, isFloatChar c = true) :
    overMatch s = none := by
  cases s with
  | nil => rfl
  | cons c r =>
    have hc : c ≠ '{' := by
      intro he
      have := h c (by simp)
      rw [he] at this
      exact Bool.noConfusion this
    rw [overMatch]
    rw [if_neg hc]

theorem chooseMatch_none (s : List Char) (h : ∀ c ∈ s, isFloatChar c = true) :
    chooseMatch s = none := by
  cases s with
  | nil => rfl
  | cons c r =>
    have hc : c ≠ '{' := by
      intro he
      have := h c (by simp)
      rw [he] at this
      exact Bool.noConfusion this
    rw [chooseMatch]
    rw [if_neg hc]

theorem factMatch_none (s : List Char) (h : ∀ c ∈ s, isFloatChar c = true) :
    factMatch s = none := by
  match s with
  | [] => rfl
  | [a] => rfl
  | a :: b :: rest =>
    have hb : b ≠ '!' := by
      intro he
      have := h b (by simp)
      rw [he] at this
      exact Bool.noConfusion this
    have hhead : rest.head? ≠ some '!' := by
      intro he
      cases rest with
      | nil => exact Option.noConfusion he
      | cons x xs =>
        have := h x (by simp)
        simp only [List.head?_cons, Option.some.injEq] at he
        rw [he] at this
        exact Bool.noConfusion this
    rw [factMatch]
    rw [if_neg (by simp [hhead]), if_neg (by simp [hb])]

theorem imulMatch_none (s : List Char) (h : ∀ c ∈ s, isFloatChar c = true) :
    imulMatch s = none := by
  match s with
  | [] => rfl
  | [a] => rfl
  | a :: b :: rest =>
    have hb := h b (by simp)
    have h1 : isLowerC b = false := by
      rcases isFloatChar_cases b hb with hb' | hb' | hb'
      · rw [isDigitC, Bool.and_eq_true, decide_eq_true_eq, decide_eq_true_eq] at hb'
        rw [isLowerC]
        have : ¬(97 ≤ b.toNat ∧ b.toNat ≤ 122) := by omega
        simpa using this
      · rw [hb']; rfl
      · rw [hb']; rfl
    have h2 : b ≠ '(' := by
      intro he
      rw [he] at hb
      exact Bool.noConfusion hb
    rw [imulMatch]
    rw [if_neg (by simp [h1, h2])]

theorem dropWhile_head_not {p : Char → Bool} :
    ∀ (l : List Char) (c : Char) (rest : List Char),
      l.dropWhile p = c :: rest → p c = false := by
  intro l
  induction l with
  | nil => intro c rest h; exact List.noConfusion h
  | cons a t ih =>
    intro c rest h
    rw [List.dropWhile_cons] at h
    by_cases hp : p a = true
    · rw [if_pos hp] at h
      exact ih c rest h
    · rw [if_neg hp] at h
      obtain ⟨rfl, _⟩ := List.cons.inj h
      exact Bool.not_eq_true _ ▸ hp

theorem dropWhile_mem {p : Char → Bool} {l : List Char} {x : Char}
    (hx : x ∈ l.dropWhile p) : x ∈ l :=
  (List.dropWhile_sublist p (l := l)).mem hx

theorem unitMatch_none (unit factor : List Char) (s : List Char)
    (h : ∀ c ∈ s, isFloatChar c = true) (hd : dotShape s = true) :
    unitMatch unit factor s = none := by
  simp only [unitMatch]
  by_cases hip : s.takeWhile isDigitC = []
  · rw [if_pos hip]
  · rw [if_neg hip]
    cases hr1 : s.dropWhile isDigitC with
    | nil => rfl
    | cons c rest =>
      have hcd : isDigitC c = false := dropWhile_head_not s c rest hr1
      have hcm : isFloatChar c = true := h c (dropWhile_mem (hr1 ▸ List.mem_cons_self c rest))
      have hcc : c = '-' ∨ c = '.' := by
        rcases isFloatChar_cases c hcm with h' | h' | h'
        · rw [hcd] at h'
          exact Bool.noConfusion h'
        · exact Or.inl h'
        · exact Or.inr h'
      rcases hcc with rfl | rfl
      · rfl
      · have hsplit : s = s.takeWhile isDigitC ++ '.' :: rest := by
          conv_lhs => rw [← List.takeWhile_append_dropWhile isDigitC s]
          rw [hr1]
        have hipd : ∀ x ∈ s.takeWhile isDigitC, isDigitC x = true :=
          fun x hx => List.mem_takeWhile_imp hx
        have hrest : ∀ x ∈ rest, isDigitC x = true :=
          dotShape_digits_after _ _ hipd (by rw [← hsplit]; exact hd)
        by_cases hrn : rest = []
        · subst hrn
          rfl
        · simp only []
          rw [takeWhile_all rest hrest, dropWhile_all rest hrest]
          rw [if_neg hrn]
          rfl

/-- The whole de-TeXification chain is the identity on a fixed-notation
decimal rendering (digits, one dot, a possible leading minus). -/
theorem normChars_id (s : List Char) (h : ∀ c ∈ s, isFloatChar c = true)
    (hd : dotShape s = true) : normChars s = s := by
  unfold normChars
  simp only [replaceAll, reSubAll]
  rw [repGo_id '\\' _ _ (by decide) s h]
  rw [repGo_id '\\' _ _ (by decide) s h]
  rw [repGo_id '\\' _ _ (by decide) s h]
  rw [reGo_id overMatch (fun s' h' _ => overMatch_none s' h') s h hd]
  rw [reGo_id chooseMatch (fun s' h' _ => chooseMatch_none s' h') s h hd]
  rw [repGo_id '^' _ _ (by decide) s h]
  rw [repGo_id '{' _ _ (by decide) s h]
  rw [repGo_id '}' _ _ (by decide) s h]
  rw [repGo_id '\\' _ _ (by decide) s h]
  rw [reGo_id factMatch (fun s' h' _ => factMatch_none s' h') s h hd]
  rw [reGo_id imulMatch (fun s' h' _ => imulMatch_none s' h') s h hd]
  rw [reGo_id (unitMatch (r"mm").data ((r"720/254").data))
    (fun s' h' hd' => unitMatch_none _ _ s' h' hd') s h hd]
  rw [reGo_id (unitMatch (r"in").data ((r"72").data))
    (fun s' h' hd' => unitMatch_none _ _ s' h' hd') s h hd]
  rw [reGo_id (unitMatch (r"bp").data ((r"1").data))
    (fun s' h' hd' => unitMatch_none _ _ s' h' hd') s h hd]
  rw [reGo_id (unitMatch (r"pt").data ((r"7200/7227").data))
    (fun s' h' hd' => unitMatch_none _ _ s' h' hd') s h hd]

theorem intReprC_ne_nil (n : Int) : intReprC n ≠ [] := by
  unfold intReprC
  by_cases hn : n < 0
  · rw [if_pos hn]; simp
  · rw [if_neg hn]; exact natReprC_ne_nil _

theorem intReprC_getLast (n : Int) :
    ∃ c, (intReprC n).getLast? = some c ∧ isDigitC c = true := by
  unfold intReprC
  by_cases hn : n < 0
  · rw [if_pos hn]
    obtain ⟨d, ds', hds⟩ : ∃ d ds', natReprC n.natAbs = d :: ds' := by
      cases hh : natReprC n.natAbs with
      | nil => exact absurd hh (natReprC_ne_nil _)
      | cons d ds' => exact ⟨d, ds', rfl⟩
    rw [hds, List.getLast?_cons_cons]
    obtain ⟨c, hc, hdig⟩ := natReprC_getLast n.natAbs
    exact ⟨c, by rw [hds] at hc; exact hc, hdig⟩
  · rw [if_neg hn]
    exact natReprC_getLast _

theorem intReprC_digitDash (n : Int) : ∀ c ∈ intReprC n, isDigitDash c = true := by
  intro c hc
  unfold intReprC at hc
  by_cases hn : n < 0
  · rw [if_pos hn, List.mem_cons] at hc
    rcases hc with rfl | hc
    · rfl
    · exact isDigitDash_of_digit c (natReprC_digits _ c hc)
  · rw [if_neg hn] at hc
    exact isDigitDash_of_digit c (natReprC_digits _ c hc)

/-- The plain (no-sentinel) branch of `evaluate_expression`. -/
theorem evaluateExpressionC_plain (t : List Char) (hne : ¬ t.isEmpty = true)
    (h1 : t.getLast? ≠ some '=') (h2 : t.getLast? ≠ some '\\') (v : PyVal)
    (hw : workoutC t = .ok v) :
    evaluateExpressionC t = .ok (pyStrVal v).data := by
  unfold evaluateExpressionC
  rw [if_neg hne, if_neg h1, if_neg h2, hw]

/-! ### C10 machinery: tokenizing and evaluating a fixed decimal literal -/

theorem exists_getLast_digit (l : List Char) (h : l ≠ [])
    (hd : ∀ x ∈ l, isDigitC x = true) :
    ∃ c, l.getLast? = some c ∧ isDigitC c = true := by
  cases hl : l.getLast? with
  | some c =>
    obtain ⟨hne, heq⟩ := List.mem_getLast?_eq_getLast (l := l) (x := c) hl
    exact ⟨c, rfl, hd c (heq ▸ List.getLast_mem hne)⟩
  | none =>
    exfalso
    obtain ⟨x, xs, rfl⟩ : ∃ x xs, l = x :: xs := by
      cases l with
      | nil => exact absurd rfl h
      | cons x xs => exact ⟨x, xs, rfl⟩
    rw [List.getLast?_eq_getLast _ (by simp)] at hl
    exact Option.noConfusion hl

theorem tokenize_float (ip fp : List Char) (hip : ip ≠ []) (hfp : fp ≠ [])
    (hipd : ∀ c ∈ ip, isDigitC c = true) (hfpd : ∀ c ∈ fp, isDigitC c = true) (f : Nat) :
    tokenize (f + 1) (ip ++ '.' :: fp) =
      .ok [.float (pNorm ((intValC ip : Int) * ipowNat 10 fp.length + (intValC fp : Int))
        (ipowNat 10 fp.length))] := by
  obtain ⟨c, ipt, rfl⟩ : ∃ c ipt, ip = c :: ipt := by
    cases ip with
    | nil => exact absurd rfl hip
    | cons c ipt => exact ⟨c, ipt, rfl⟩
  have hc : isDigitC c = true := hipd c (by simp)
  obtain ⟨n1, n2, n3, n4, n5, n6, n7, n8, _, _⟩ := isDigitC_ne_special c hc
  show tokenize (f + 1) (c :: (ipt ++ '.' :: fp)) = _
  rw [tokenize_cons]
  rw [if_neg n1, if_neg n2, if_neg n3, if_neg n4, if_neg n5, if_neg n6, if_neg n7,
    if_neg n8, if_pos (by rw [hc]; rfl)]
  obtain ⟨htk, hdr⟩ := takeWhile_append_stop isDigitC (c :: ipt) '.' fp hipd (by decide)
  have hrn : readNum (c :: (ipt ++ '.' :: fp)) = .ok (.float (pNorm
      ((intValC (c :: ipt) : Int) * ipowNat 10 fp.length + (intValC fp : Int))
      (ipowNat 10 fp.length)), []) := by
    unfold readNum
    rw [show c :: (ipt ++ '.' :: fp) = (c :: ipt) ++ '.' :: fp from rfl]
    rw [htk, hdr]
    simp only []
    rw [takeWhile_all fp hfpd, dropWhile_all fp hfpd]
    rw [if_neg (by simp)]
    rfl
  rw [hrn]
  show (tokenize f []).map _ = _
  rw [tokenize_nil]
  rfl

theorem evalPy_float_str (ip fp : List Char) (hip : ip ≠ []) (hfp : fp ≠ [])
    (hipd : ∀ c ∈ ip, isDigitC c = true) (hfpd : ∀ c ∈ fp, isDigitC c = true) :
    evalPy (ip ++ '.' :: fp) =
      .ok (.float (pNorm ((intValC ip : Int) * ipowNat 10 fp.length + (intValC fp : Int))
        (ipowNat 10 fp.length))) := by
  unfold evalPy
  rw [tokenize_float ip fp hip hfp hipd hfpd ((ip ++ '.' :: fp)).length]
  rfl

theorem evalPy_neg_float_str (ip fp : List Char) (hip : ip ≠ []) (hfp : fp ≠ [])
    (hipd : ∀ c ∈ ip, isDigitC c = true) (hfpd : ∀ c ∈ fp, isDigitC c = true) :
    evalPy ('-' :: (ip ++ '.' :: fp)) =
      .ok (.float (pNeg (pNorm
        ((intValC ip : Int) * ipowNat 10 fp.length + (intValC fp : Int))
        (ipowNat 10 fp.length)))) := by
  unfold evalPy
  have hstep : tokenize (('-' :: (ip ++ '.' :: fp)).length + 1) ('-' :: (ip ++ '.' :: fp)) =
      .ok [.minus, .float (pNorm
        ((intValC ip : Int) * ipowNat 10 fp.length + (intValC fp : Int))
        (ipowNat 10 fp.length))] := by
    rw [show ('-' :: (ip ++ '.' :: fp)).length + 1 = ((ip ++ '.' :: fp).length + 1) + 1 from rfl]
    rw [tokenize_cons]
    rw [if_neg (by decide), if_neg (by decide), if_neg (by decide), if_neg (by decide),
      if_neg (by decide), if_pos rfl]
    rw [tokenize_float ip fp hip hfp hipd hfpd ((ip ++ '.' :: fp)).length]
    rfl
  rw [hstep]
  rfl

/-! ### C10 machinery: the fixed-notation forms of `assembleFloat` -/

/-- Outside the fixed-notation window the rendering carries an `e`. -/
theorem assembleFloat_sci_has_e (dz : Bool) (hi : Int) (neg : Bool) (sig : List Char)
    (E : Int) (h : ¬ (-4 ≤ E ∧ E < hi)) : 'e' ∈ assembleFloat dz hi neg sig E := by
  simp only [assembleFloat]
  rw [if_neg h]
  have he : 'e' ∈ expChars E := by
    simp only [expChars]
    exact List.mem_cons_self _ _
  have hb : 'e' ∈ (match sig with
      | [d] => [d]
      | d :: rest => d :: '.' :: rest
      | [] => ['0']) ++ expChars E := List.mem_append_right _ he
  cases neg
  · simpa using hb
  · simp only [if_pos rfl]
    exact List.mem_cons_of_mem _ hb

/-- In the fixed-notation window, `assembleFloat` (with the trailing `.0` of
`str(float)`) is a sign, an integer part, a dot, and a fraction part, whose
decimal value scales the significand by `10 ^ (E - (len - 1))`. -/
theorem assembleFloat_fixed_decomp (neg : Bool) (sig : List Char) (E : Int)
    (hsig : sig ≠ []) (hdig : ∀ c ∈ sig, isDigitC c = true)
    (hco : -4 ≤ E ∧ E < 16) :
    ∃ ip fp : List Char, ∃ k : Nat,
      assembleFloat true 16 neg sig E =
        (if neg then '-' :: (ip ++ '.' :: fp) else ip ++ '.' :: fp) ∧
      ip ≠ [] ∧ fp ≠ [] ∧ (∀ c ∈ ip, isDigitC c = true) ∧ (∀ c ∈ fp, isDigitC c = true) ∧
      (k : Int) = E + fp.length - sig.length + 1 ∧
      intValC ip * 10 ^ fp.length + intValC fp = intValC sig * 10 ^ k := by
  have hslen : 0 < sig.length := List.length_pos.mpr hsig
  by_cases hA : (sig.length : Int) - 1 ≤ E
  · have hE0 : 0 ≤ E - ((sig.length : Int) - 1) := by omega
    have hw : ((E - ((sig.length : Int) - 1)).toNat : Int) = E - ((sig.length : Int) - 1) :=
      Int.toNat_of_nonneg hE0
    refine ⟨sig ++ List.replicate (E - ((sig.length : Int) - 1)).toNat '0', ['0'],
      (E - ((sig.length : Int) - 1)).toNat + 1, ?_, by simp [hsig], by simp, ?_, ?_, ?_, ?_⟩
    · simp only [assembleFloat]
      rw [if_pos hco, if_pos hA]
      simp only [if_true]
    · intro x hx
      rcases List.mem_append.mp hx with hx | hx
      · exact hdig x hx
      · rw [List.eq_of_mem_replicate hx]
        decide
    · intro x hx
      simp only [List.mem_singleton] at hx
      subst hx
      decide
    · simp only [List.length_singleton]
      omega
    · rw [intValC_append, intValC_replicate_zero, List.length_replicate]
      rw [show intValC ['0'] = 0 from rfl, show (['0'] : List Char).length = 1 from rfl]
      rw [pow_succ]
      ring
  · by_cases hB : 0 ≤ E
    · have hj : ((E + 1).toNat : Int) = E + 1 := Int.toNat_of_nonneg (by omega)
      have hjlt : (E + 1).toNat < sig.length := by omega
      have hjpos : 0 < (E + 1).toNat := by omega
      refine ⟨sig.take (E + 1).toNat, sig.drop (E + 1).toNat, 0, ?_, ?_, ?_, ?_, ?_, ?_, ?_⟩
      · simp only [assembleFloat]
        rw [if_pos hco, if_neg hA, if_pos hB]
      · apply List.ne_nil_of_length_pos
        rw [List.length_take]
        omega
      · apply List.ne_nil_of_length_pos
        rw [List.length_drop]
        omega
      · exact fun x hx => hdig x (List.Sublist.subset (List.take_sublist _ sig) hx)
      · exact fun x hx => hdig x (List.Sublist.subset (List.drop_sublist _ sig) hx)
      · rw [List.length_drop]
        push_cast
        omega
      · have hsplit := intValC_append (sig.take (E + 1).toNat) (sig.drop (E + 1).toNat)
        rw [List.take_append_drop] at hsplit
        rw [← hsplit, pow_zero, mul_one]
    · have hw : (((-(E + 1)).toNat : Nat) : Int) = -(E + 1) := Int.toNat_of_nonneg (by omega)
      refine ⟨['0'], List.replicate (-(E + 1)).toNat '0' ++ sig, 0, ?_, by simp, by simp [hsig],
        ?_, ?_, ?_, ?_⟩
      · simp only [assembleFloat]
        rw [if_pos hco, if_neg hA, if_neg hB]
        rfl
      · intro x hx
        simp only [List.mem_singleton] at hx
        subst hx
        decide
      · intro x hx
        rcases List.mem_append.mp hx with hx | hx
        · rw [List.eq_of_mem_replicate hx]
          decide
        · exact hdig x hx
      · rw [List.length_append, List.length_replicate]
        push_cast
        omega
      · rw [intValC_append, intValC_replicate_zero, List.length_append, List.length_replicate]
        rw [show intValC ['0'] = 0 from rfl, pow_zero, mul_one]
        ring

/-! ### C10 machinery: re-evaluating a rendered decimal recovers the value -/

theorem fixed_render_eval_pos (q : PRat) (ip fp : List Char)
    (hip : ip ≠ []) (hfp : fp ≠ [])
    (hipd : ∀ c ∈ ip, isDigitC c = true) (hfpd : ∀ c ∈ fp, isDigitC c = true)
    (hden : 0 < q.den) (hpos : 0 < q.num)
    (hcan : pNorm q.num (q.den : Int) = q)
    (hcross : (intValC ip * 10 ^ fp.length + intValC fp) * q.den
      = q.num.natAbs * 10 ^ fp.length) :
    workoutC (ip ++ '.' :: fp) = .ok (.float q) := by
  have hclass : ∀ c ∈ ip ++ '.' :: fp, isFloatChar c = true := by
    intro c hc
    rcases List.mem_append.mp hc with hc | hc
    · exact isFloatChar_of_digit c (hipd c hc)
    · rcases List.mem_cons.mp hc with rfl | hc
      · decide
      · exact isFloatChar_of_digit c (hfpd c hc)
  have hdot : dotShape (ip ++ '.' :: fp) = true := dotShape_append_dot ip fp hipd hfpd
  have hEval := evalPy_float_str ip fp hip hfp hipd hfpd
  have hmant : pNorm ((intValC ip : Int) * ipowNat 10 fp.length + (intValC fp : Int))
      (ipowNat 10 fp.length) = q := by
    rw [ipowNat_ten fp.length]
    have hnum_cast : (intValC ip : Int) * ((10 ^ fp.length : Nat) : Int) + (intValC fp : Int)
        = ((intValC ip * 10 ^ fp.length + intValC fp : Nat) : Int) := by
      push_cast
      ring
    rw [hnum_cast]
    have hcr : ((intValC ip * 10 ^ fp.length + intValC fp : Nat) : Int) * ((q.den : Nat) : Int)
        = q.num * (((10 ^ fp.length : Nat) : Nat) : Int) := by
      have h2 := congrArg (fun x : Nat => (x : Int)) hcross
      push_cast at h2 ⊢
      rw [abs_of_pos hpos] at h2
      linarith [h2]
    have hstep := pNorm_eq_of_cross ((intValC ip * 10 ^ fp.length + intValC fp : Nat) : Int)
      q.num (10 ^ fp.length) q.den (pow_pos (by norm_num) _) hden hcr
    rw [hstep, hcan]
  simp only [workoutC]
  rw [normChars_id _ hclass hdot, hEval, hmant]

theorem fixed_render_eval_neg (q : PRat) (ip fp : List Char)
    (hip : ip ≠ []) (hfp : fp ≠ [])
    (hipd : ∀ c ∈ ip, isDigitC c = true) (hfpd : ∀ c ∈ fp, isDigitC c = true)
    (hden : 0 < q.den) (hneg : q.num < 0)
    (hcan : pNorm q.num (q.den : Int) = q)
    (hcross : (intValC ip * 10 ^ fp.length + intValC fp) * q.den
      = q.num.natAbs * 10 ^ fp.length) :
    workoutC ('-' :: (ip ++ '.' :: fp)) = .ok (.float q) := by
  have hclass : ∀ c ∈ '-' :: (ip ++ '.' :: fp), isFloatChar c = true := by
    intro c hc
    rcases List.mem_cons.mp hc with rfl | hc
    · decide
    · rcases List.mem_append.mp hc with hc | hc
      · exact isFloatChar_of_digit c (hipd c hc)
      · rcases List.mem_cons.mp hc with rfl | hc
        · decide
        · exact isFloatChar_of_digit c (hfpd c hc)
  have hdot : dotShape ('-' :: (ip ++ '.' :: fp)) = true := by
    rw [dotShape, if_neg (by decide : ¬ ('-' = '.'))]
    exact dotShape_append_dot ip fp hipd hfpd
  have hEval := evalPy_neg_float_str ip fp hip hfp hipd hfpd
  have hmant : pNeg (pNorm ((intValC ip : Int) * ipowNat 10 fp.length + (intValC fp : Int))
      (ipowNat 10 fp.length)) = q := by
    rw [ipowNat_ten fp.length]
    have hnum_cast : (intValC ip : Int) * ((10 ^ fp.length : Nat) : Int) + (intValC fp : Int)
        = ((intValC ip * 10 ^ fp.length + intValC fp : Nat) : Int) := by
      push_cast
      ring
    rw [hnum_cast]
    have hcr : ((intValC ip * 10 ^ fp.length + intValC fp : Nat) : Int) * ((q.den : Nat) : Int)
        = ((q.num.natAbs : Nat) : Int) * (((10 ^ fp.length : Nat) : Nat) : Int) := by
      exact_mod_cast congrArg (fun x : Nat => (x : Int)) hcross
    have hstep := pNorm_eq_of_cross ((intValC ip * 10 ^ fp.length + intValC fp : Nat) : Int)
      ((q.num.natAbs : Nat) : Int) (10 ^ fp.length) q.den (pow_pos (by norm_num) _) hden hcr
    rw [hstep]
    rw [← pNorm_neg_of_pos ((q.num.natAbs : Nat) : Int) q.den hden]
    rw [show -(((q.num.natAbs : Nat)) : Int) = q.num from by omega]
    exact hcan
  simp only [workoutC]
  rw [normChars_id _ hclass hdot, hEval, hmant]

/-- Feeding the fixed-notation rendering of a canonical terminating-decimal
rational back through `workout` recovers exactly the same value; the
rendering is nonempty and ends in a digit. -/
theorem floatRepr_roundtrip (q : PRat) (hcan : pNorm q.num (q.den : Int) = q)
    (hterm : termDenB q.den = true) (hfix : 'e' ∉ floatReprC q) :
    workoutC (floatReprC q) = .ok (.float q) ∧ floatReprC q ≠ [] ∧
      ∃ c, (floatReprC q).getLast? = some c ∧ isDigitC c = true := by
  have hterm' : (stripFac 5 ((stripFac 2 (q.den + 1) q.den).2 + 1)
      (stripFac 2 (q.den + 1) q.den).2).2 = 1 := by
    rw [termDenB] at hterm
    exact beq_iff_eq.mp hterm
  have hden0 : q.den ≠ 0 := by
    intro h0
    rw [h0] at hterm'
    exact absurd hterm' (by decide)
  have hden : 0 < q.den := Nat.pos_of_ne_zero hden0
  by_cases hnum : q.num = 0
  · have hq : q = ⟨0, 1⟩ := by
      rw [← hcan, hnum, pNorm_zero_of_pos q.den hden]
    rw [hq]
    exact ⟨rfl, by decide, ⟨'0', by decide, by decide⟩⟩
  · have hna : 0 < q.num.natAbs := Int.natAbs_pos.mpr hnum
    simp only [floatReprC] at hfix ⊢
    rw [if_neg hnum, if_pos hterm'] at hfix ⊢
    obtain ⟨a, m2, hs2⟩ : ∃ x y, stripFac 2 (q.den + 1) q.den = (x, y) := ⟨_, _, rfl⟩
    obtain ⟨hd2, hnd2⟩ := stripFac_spec 2 (by omega) (q.den + 1) q.den (by omega) hden
    rw [hs2] at hd2 hnd2 hfix ⊢
    simp only [] at hd2 hnd2 hfix ⊢
    have hm2pos : 0 < m2 := by
      rcases Nat.eq_zero_or_pos m2 with h0 | h
      · rw [h0, Nat.mul_zero] at hd2
        omega
      · exact h
    obtain ⟨b, m5, hs5⟩ : ∃ x y, stripFac 5 (m2 + 1) m2 = (x, y) := ⟨_, _, rfl⟩
    obtain ⟨hd5, hnd5⟩ := stripFac_spec 5 (by omega) (m2 + 1) m2 (by omega) hm2pos
    rw [hs2] at hterm'
    simp only [] at hterm'
    rw [hs5] at hd5 hnd5 hterm' hfix ⊢
    simp only [] at hd5 hnd5 hterm' hfix ⊢
    rw [hterm', Nat.mul_one] at hd5
    obtain ⟨t, ht⟩ : ∃ x, max a b = x := ⟨_, rfl⟩
    rw [ht] at hfix ⊢
    obtain ⟨n10, hn10e⟩ : ∃ x, q.num.natAbs * 2 ^ (t - a) * 5 ^ (t - b) = x := ⟨_, rfl⟩
    rw [hn10e] at hfix ⊢
    obtain ⟨ds, hdse⟩ : ∃ x, natReprC n10 = x := ⟨_, rfl⟩
    rw [hdse] at hfix ⊢
    obtain ⟨sig, hsge⟩ : ∃ x, (ds.reverse.dropWhile (fun c => c = '0')).reverse = x :=
      ⟨_, rfl⟩
    rw [hsge] at hfix ⊢
    have hn10pos : 0 < n10 := by
      rw [← hn10e]
      exact Nat.mul_pos (Nat.mul_pos hna (pow_pos (by norm_num) _)) (pow_pos (by norm_num) _)
    have hn10d : n10 * q.den = q.num.natAbs * 10 ^ t := by
      rw [hd5] at hd2
      rw [← hn10e, hd2]
      calc q.num.natAbs * 2 ^ (t - a) * 5 ^ (t - b) * (2 ^ a * 5 ^ b)
          = q.num.natAbs * (2 ^ (t - a) * 2 ^ a) * (5 ^ (t - b) * 5 ^ b) := by ring
        _ = q.num.natAbs * 2 ^ t * 5 ^ t := by
            rw [← pow_add, ← pow_add, Nat.sub_add_cancel (ht ▸ le_max_left a b),
              Nat.sub_add_cancel (ht ▸ le_max_right a b)]
        _ = q.num.natAbs * 10 ^ t := by
            rw [show (10 : Nat) = 2 * 5 from rfl, mul_pow]
            ring
    have hds_val : intValC ds = n10 := hdse ▸ intValC_natReprC n10
    have hds_ne : ds ≠ [] := hdse ▸ natReprC_ne_nil n10
    have hds_dig : ∀ c ∈ ds, isDigitC c = true := hdse ▸ natReprC_digits n10
    have hds_head : ∀ c, ds.head? = some c → c ≠ '0' :=
      hdse ▸ natReprC_head_ne_zero n10 hn10pos
    obtain ⟨z, hdz⟩ := strip_zeros_decomp ds
    rw [hsge] at hdz
    have hsig_ne : sig ≠ [] := by
      intro h0
      rw [h0, List.nil_append] at hdz
      have hz : 0 < z := by
        rcases Nat.eq_zero_or_pos z with h' | h'
        · rw [h'] at hdz
          simp at hdz
          exact absurd hdz hds_ne
        · exact h'
      have hh : ds.head? = some '0' := by
        rw [hdz]
        obtain ⟨z', rfl⟩ : ∃ z', z = z' + 1 := ⟨z - 1, by omega⟩
        rw [List.replicate_succ]
        rfl
      exact hds_head '0' hh rfl
    have hsig_dig : ∀ c ∈ sig, isDigitC c = true := by
      intro c hc
      refine hds_dig c ?_
      rw [hdz]
      exact List.mem_append_left _ hc
    have hlen : ds.length = sig.length + z := by
      rw [hdz, List.length_append, List.length_replicate]
    have hvds : n10 = intValC sig * 10 ^ z := by
      rw [← hds_val]
      rw [hdz, intValC_append, intValC_replicate_zero, List.length_replicate, Nat.add_zero]
    have hco : -4 ≤ ((ds.length : Int) - 1 - (t : Int)) ∧
        ((ds.length : Int) - 1 - (t : Int)) < 16 := by
      by_contra hno
      exact hfix (assembleFloat_sci_has_e true 16 (decide (q.num < 0)) sig
        ((ds.length : Int) - 1 - (t : Int)) hno)
    obtain ⟨ip, fp, k, heq, hip, hfp, hipd, hfpd, hk, hval⟩ :=
      assembleFloat_fixed_decomp (decide (q.num < 0)) sig
        ((ds.length : Int) - 1 - (t : Int)) hsig_ne hsig_dig hco
    rw [heq] at hfix ⊢
    have hkz : t + k = fp.length + z := by
      have h2 : ds.length = sig.length + z := hlen
      omega
    have hcross : (intValC ip * 10 ^ fp.length + intValC fp) * q.den
        = q.num.natAbs * 10 ^ fp.length := by
      apply Nat.eq_of_mul_eq_mul_right (pow_pos (by norm_num : (0 : Nat) < 10) z)
      calc (intValC ip * 10 ^ fp.length + intValC fp) * q.den * 10 ^ z
          = (intValC sig * 10 ^ k) * q.den * 10 ^ z := by rw [hval]
        _ = (intValC sig * 10 ^ z) * q.den * 10 ^ k := by ring
        _ = n10 * q.den * 10 ^ k := by rw [← hvds]
        _ = q.num.natAbs * 10 ^ t * 10 ^ k := by rw [hn10d]
        _ = q.num.natAbs * 10 ^ (t + k) := by rw [pow_add]; ring
        _ = q.num.natAbs * 10 ^ (fp.length + z) := by rw [hkz]
        _ = q.num.natAbs * 10 ^ fp.length * 10 ^ z := by rw [pow_add]; ring
    obtain ⟨cl, hcl, hcld⟩ := exists_getLast_digit fp hfp hfpd
    by_cases hneg : q.num < 0
    · rw [if_pos (decide_eq_true hneg)] at hfix ⊢
      refine ⟨fixed_render_eval_neg q ip fp hip hfp hipd hfpd hden hneg hcan hcross,
        by simp, ?_⟩
      have hgl : ('-' :: (ip ++ '.' :: fp)).getLast? = fp.getLast? := by
        rw [show ('-' :: (ip ++ '.' :: fp)) = ('-' :: ip) ++ '.' :: fp from rfl]
        rw [getLast?_append_right ('-' :: ip) ('.' :: fp) (by simp)]
        rw [show ('.' :: fp) = ['.'] ++ fp from rfl]
        rw [getLast?_append_right ['.'] fp hfp]
      exact ⟨cl, by rw [hgl]; exact hcl, hcld⟩
    · have hpos : 0 < q.num := by omega
      rw [if_neg (by rw [decide_eq_true_eq]; exact hneg)] at hfix ⊢
      refine ⟨fixed_render_eval_pos q ip fp hip hfp hipd hfpd hden hpos hcan hcross,
        by simp, ?_⟩
      have hgl : (ip ++ '.' :: fp).getLast? = fp.getLast? := by
        rw [getLast?_append_right ip ('.' :: fp) (by simp)]
        rw [show ('.' :: fp) = ['.'] ++ fp from rfl]
        rw [getLast?_append_right ['.'] fp hfp]
      exact ⟨cl, by rw [hgl]; exact hcl, hcld⟩

theorem digitDash_ne_dot (c : Char) (h : isDigitDash c = true) : c ≠ '.' := by
  rw [isDigitDash, Bool.or_eq_true, decide_eq_true_eq] at h
  rcases h with h | h
  · exact digit_ne_dot c h
  · rw [h]; decide

/-- C10 (amended): for a plain (non-sentinel) expression whose `workout`
value is a number rendered in fixed decimal notation — any integer, or a
float whose canonical value has a terminating-decimal denominator (true of
the exact value of every IEEE float, whose denominator is a power of two)
and whose rendering carries no exponent marker — feeding the rendered
output back in is a fixed point: it re-normalises, re-parses and re-renders
to exactly the same string.  For renderings in scientific notation the
property fails — see the counterexample. -/
theorem c10_fixed_notation_idempotent (s : String) (v : PyVal)
    (h1 : s.data.getLast? ≠ some '=') (h2 : s.data.getLast? ≠ some '\\')
    (hw : workout s = .ok v)
    (hv : (∃ n, v = .int n) ∨
      ∃ q, v = .float q ∧ pNorm q.num (q.den : Int) = q ∧ termDenB q.den = true)
    (hfix : 'e' ∉ (pyStrVal v).data) :
    evaluateExpression s = .ok (pyStrVal v) ∧
      evaluateExpression (pyStrVal v) = .ok (pyStrVal v) := by
  have hwc : workoutC s.data = .ok v := hw
  have hne : ¬ s.data.isEmpty = true := by
    intro hnil
    rw [List.isEmpty_iff] at hnil
    rw [hnil] at hwc
    have h0 : (Except.ok (PyVal.str ("[]")) : Except PyErr PyVal) = .ok v := hwc
    rcases hv with ⟨n, rfl⟩ | ⟨q, rfl, -, -⟩ <;> simp at h0
  refine ⟨?_, ?_⟩
  · show (match evaluateExpressionC s.data with
      | Except.ok r => Except.ok (⟨r⟩ : String)
      | Except.error e => Except.error e) = Except.ok (pyStrVal v)
    rw [evaluateExpressionC_plain s.data hne h1 h2 _ hwc]
  · rcases hv with ⟨n, rfl⟩ | ⟨q, rfl, hcan, hterm⟩
    · obtain ⟨lc, hlc, hlcd⟩ := intReprC_getLast n
      obtain ⟨_, _, _, _, _, _, _, _, ne9, ne10⟩ := isDigitC_ne_special lc hlcd
      have hne2 : ¬ (intReprC n).isEmpty = true := by
        intro hh
        rw [List.isEmpty_iff] at hh
        exact intReprC_ne_nil n hh
      have hl1 : (intReprC n).getLast? ≠ some '=' := by
        rw [hlc]
        intro hh
        exact ne9 (Option.some.inj hh)
      have hl2 : (intReprC n).getLast? ≠ some '\\' := by
        rw [hlc]
        intro hh
        exact ne10 (Option.some.inj hh)
      have hclass : ∀ c ∈ intReprC n, isFloatChar c = true :=
        fun c hc => isFloatChar_of_digitDash c (intReprC_digitDash n c hc)
      have hdot : dotShape (intReprC n) = true :=
        dotShape_of_no_dot _ (fun c hc => digitDash_ne_dot c (intReprC_digitDash n c hc))
      have hwc2 : workoutC (intReprC n) = .ok (.int n) := by
        simp only [workoutC]
        rw [normChars_id _ hclass hdot, evalPy_intReprC n]
      show (match evaluateExpressionC (pyStrVal (.int n)).data with
        | Except.ok r => Except.ok (⟨r⟩ : String)
        | Except.error e => Except.error e) = Except.ok (pyStrVal (.int n))
      rw [show (pyStrVal (.int n)).data = intReprC n from rfl]
      rw [evaluateExpressionC_plain (intReprC n) hne2 hl1 hl2 _ hwc2]
    · have hfixq : 'e' ∉ floatReprC q := hfix
      obtain ⟨hwr, hne2, cl, hcl, hcld⟩ := floatRepr_roundtrip q hcan hterm hfixq
      obtain ⟨_, _, _, _, _, _, _, _, ne9, ne10⟩ := isDigitC_ne_special cl hcld
      have hne2' : ¬ (floatReprC q).isEmpty = true := by
        intro hh
        rw [List.isEmpty_iff] at hh
        exact hne2 hh
      have hl1 : (floatReprC q).getLast? ≠ some '=' := by
        rw [hcl]
        intro hh
        exact ne9 (Option.some.inj hh)
      have hl2 : (floatReprC q).getLast? ≠ some '\\' := by
        rw [hcl]
        intro hh
        exact ne10 (Option.some.inj hh)
      show (match evaluateExpressionC (pyStrVal (.float q)).data with
        | Except.ok r => Except.ok (⟨r⟩ : String)
        | Except.error e => Except.error e) = Except.ok (pyStrVal (.float q))
      rw [show (pyStrVal (.float q)).data = floatReprC q from rfl]
      rw [evaluateExpressionC_plain (floatReprC q) hne2' hl1 hl2 _ hwr]

/-- C10, witness: applied at the plain expression `1/2`, whose value is the
float `0.5`: `evaluate_expression('1/2')` renders `0.5`, and re-evaluating
`0.5` reproduces `0.5`. -/
theorem c10_witness :
    evaluateExpression ("1/2") = .ok ("0.5") ∧
      evaluateExpression ("0.5") = .ok ("0.5") := by
  have h := c10_fixed_notation_idempotent ("1/2") (.float (pQ 1 2)) (by decide) (by decide)
    rfl (Or.inr ⟨pQ 1 2, rfl, rfl, rfl⟩) (by decide)
  have hs : pyStrVal (.float (pQ 1 2)) = ("0.5") := rfl
  rw [hs] at h
  exact h

/-- C10, counterexample: `1/10^5` is a plain (non-sentinel) expression that
evaluates to the number `1e-05`, but feeding its rendering back in does not
reproduce the value: `str(1e-05)` renders in scientific notation, the
renormalisation rewrites it into `1*e-05`, and `05` is an invalid Python
literal, so the second pass yields the bracketed error string `[1*e-05]`. -/
theorem c10_counterexample :
    ("1/10^5" : String).data.getLast? ≠ some '=' ∧
      ("1/10^5" : String).data.getLast? ≠ some '\\' ∧
      workout ("1/10^5") = .ok (.float (pQ 1 100000)) ∧
      evaluateExpression ("1/10^5") = .ok ("1e-05") ∧
      evaluateExpression ("1e-05") = .ok ("[1*e-05]") ∧
      ("[1*e-05]" : String) ≠ ("1e-05" : String) :=
  ⟨by decide, by decide, rfl, rfl, rfl, by decide⟩

/-- C8: unit-suffixed literals evaluate to points: `25.4mm` is exactly the
float `72.0` and `2.5in` exactly `180.0`; the rewrite factors are
`mm → ×720/254`, `in → ×72`, `bp → ×1`, `pt → ×7200/7227`. -/
theorem c8_unit_conversions :
    workout ("25.4mm") = .ok (.float (pQ 72 1)) ∧
      workout ("2.5in") = .ok (.float (pQ 180 1)) ∧
      normalize ("25.4mm") = "(25.4*720/254)" ∧
      normalize ("2.5in") = "(2.5*72)" ∧
      normalize ("1bp") = "(1*1)" ∧
      normalize ("1pt") = "(1*7200/7227)" :=
  ⟨rfl, rfl, rfl, rfl, rfl, rfl⟩

/-- C9: the sentinel-driven formatter renders `3+4=` as `3+4 = 7` and
`0.5\` as `0.5 = {1\over2}`. -/
theorem c9_sentinel_renderings :
    evaluateExpression ("3+4=") = .ok ("3+4 = 7") ∧
      evaluateExpression ("0.5\\") = .ok ("0.5 = \x7b1\\over2\x7d") :=
  ⟨rfl, rfl⟩

end Proust
